import Mathlib

/-!
Verification of the link-extraction and keyword-ranking core of the
`urlscrape` repository (`bfs_keyword_search.py`).

The development shallowly embeds the two core functions:

* `bfs_traverse_dom` (TreeLevelIndexer): breadth-first traversal of a
  serialized DOM tree collecting href-bearing nodes per depth, and
* `search_keyword_in_hrefs` (KeywordRanker): per-level normalization,
  deduplication, keyword matching and level selection.

Strings are modelled as `List Char`.  Python's `urllib.parse.urlparse`
is modelled by `urlsplitCore` following CPython's `urlsplit` algorithm
for ASCII input (leading C0-control/space stripping, tab/CR/LF removal,
scheme detection, `//`-netloc splitting with the mismatched-bracket
`ValueError`, then fragment and query splitting).  Since `urlparse` can
raise `ValueError` (mismatched `[`/`]` in the authority) and the Python
code installs no handler, the fallible parts of the ranker are embedded
in `Except Unit`; `.error ()` models an uncaught exception escaping the
function.  Python `float` ratios are modelled as exact rationals `ℚ`
(IEEE division of the small integer counts involved is exact enough
that equality comparisons coincide for all realistic level sizes).
Python dicts are modelled as insertion-ordered association lists with
in-place update (`updIn`), matching dict update semantics.
-/

deriving instance DecidableEq for Except

namespace UrlScrape

/-- Strings of the Python program, modelled as lists of characters. -/
abbrev Str := List Char

/-- Coerce a Lean string literal to the `Str` model. -/
def str (s : String) : Str := s.data

/-- Lowering of a single character (`str.lower` on ASCII). -/
def lowerC (c : Char) : Char := c.toLower

/-- `s.lower()` on the ASCII fragment. -/
def lowerS (s : Str) : Str := s.map lowerC

/-- Substring test: Python's `pat in s`. -/
def isSubstr (pat : Str) : Str → Bool
  | [] => pat.isEmpty
  | c :: cs => pat.isPrefixOf (c :: cs) || isSubstr pat cs

/-- Split at the first occurrence of `sep` (Python `s.split(sep, 1)` when
`sep` occurs); `none` when `sep` does not occur. -/
def splitOnFirst (sep : Char) : Str → Option (Str × Str)
  | [] => none
  | c :: cs =>
    if c = sep then some ([], cs)
    else (splitOnFirst sep cs).map (fun p => (c :: p.1, p.2))

/-- Split at every occurrence of characters satisfying `p`
(Python `s.split(sep)` semantics: `n` separators yield `n+1` pieces). -/
def splitAllP (p : Char → Bool) : Str → List Str
  | [] => [[]]
  | c :: cs =>
    if p c then [] :: splitAllP p cs
    else
      match splitAllP p cs with
      | [] => [[c]]
      | piece :: rest => (c :: piece) :: rest

/-- Python `s.split('/')`. -/
def splitSlash (s : Str) : List Str := splitAllP (fun c => c = '/') s

/-- Python whitespace for `str.split()` with no argument (ASCII fragment). -/
def pyIsSpace (c : Char) : Bool :=
  c = ' ' || c = '\t' || c = '\n' || c = '\r' || c = '\x0b' || c = '\x0c'

/-- `' '.join(s.split())`: collapse whitespace runs to single spaces and
trim the ends (line 225 of the source). -/
def collapseWs (s : Str) : Str :=
  List.intercalate [' '] ((splitAllP pyIsSpace s).filter (fun piece => piece ≠ []))

/-- Characters allowed in a URL scheme (`urllib.parse.scheme_chars`). -/
def isSchemeChar (c : Char) : Bool :=
  c.isAlpha || c.isDigit || c = '+' || c = '-' || c = '.'

/-- Result of `urllib.parse.urlsplit` (the `params`-free shape; the code
only reads `scheme`, `netloc`, `path`, `query` and `fragment`). -/
structure SplitResult where
  scheme : Str
  netloc : Str
  path : Str
  query : Str
  fragment : Str
deriving DecidableEq, Repr

/-- `_splitnetloc`: the authority extends to the first `/`, `?` or `#`. -/
def netlocEnd (c : Char) : Bool := c = '/' || c = '?' || c = '#'

/-- CPython `urlsplit` for ASCII input.  The boolean is `true` when the
authority has a `[` without `]` or vice versa, in which case CPython
raises `ValueError("Invalid IPv6 URL")`. -/
def urlsplitCore (url0 : Str) : SplitResult × Bool :=
  let url1 := url0.dropWhile (fun c => c ≤ ' ')
  let url2 := url1.filter (fun c => !(c = '\t' || c = '\r' || c = '\n'))
  let schemeRest : Str × Str :=
    match splitOnFirst ':' url2 with
    | some (pre, post) =>
      if pre ≠ [] ∧ (pre.headD ' ').isAlpha ∧ pre.all isSchemeChar then
        (lowerS pre, post)
      else ([], url2)
    | none => ([], url2)
  let scheme := schemeRest.1
  let rest := schemeRest.2
  let netlocRest : Str × Str × Bool :=
    if (str "//").isPrefixOf rest then
      let nl := (rest.drop 2).takeWhile (fun c => !netlocEnd c)
      let r := (rest.drop 2).dropWhile (fun c => !netlocEnd c)
      (nl, r, (nl.contains '[' != nl.contains ']'))
    else ([], rest, false)
  let netloc := netlocRest.1
  let rest2 := netlocRest.2.1
  let bad := netlocRest.2.2
  let fragSplit : Str × Str :=
    match splitOnFirst '#' rest2 with
    | some (a, b) => (a, b)
    | none => (rest2, [])
  let querySplit : Str × Str :=
    match splitOnFirst '?' fragSplit.1 with
    | some (a, b) => (a, b)
    | none => (fragSplit.1, [])
  (⟨scheme, netloc, querySplit.1, querySplit.2, fragSplit.2⟩, bad)

/-- `urlparse` as used by the ranker: `.error ()` models the uncaught
`ValueError` for a mismatched-bracket authority. -/
def urlsplitE (url : Str) : Except Unit SplitResult :=
  let r := urlsplitCore url
  if r.2 then .error () else .ok r.1

/-- Total variant (used inside the `urljoin` model, where the traversal
code never feeds it a bracket-mismatched authority in the scenarios of
interest). -/
def urlsplitT (url : Str) : SplitResult := (urlsplitCore url).1

/-- CPython `urlunsplit`. -/
def urlunsplit (r : SplitResult) : Str :=
  let url0 := r.path
  let url1 :=
    if r.netloc ≠ [] ∨ (str "//").isPrefixOf url0 then
      str "//" ++ r.netloc ++
        (if url0 ≠ [] ∧ ¬ (str "/").isPrefixOf url0 then '/' :: url0 else url0)
    else url0
  let url2 := if r.scheme ≠ [] then r.scheme ++ ':' :: url1 else url1
  let url3 := if r.query ≠ [] then url2 ++ '?' :: r.query else url2
  if r.fragment ≠ [] then url3 ++ '#' :: r.fragment else url3

/-- `urllib.parse.uses_relative` (the scheme list of CPython). -/
def usesRelative (s : Str) : Bool :=
  [str "", str "ftp", str "http", str "gopher", str "nntp", str "imap",
   str "wais", str "file", str "https", str "shttp", str "mms",
   str "prospero", str "rtsp", str "rtspu", str "sftp", str "svn",
   str "svn+ssh", str "ws", str "wss"].contains s

/-- `urllib.parse.uses_netloc` (the scheme list of CPython). -/
def usesNetloc (s : Str) : Bool :=
  [str "", str "ftp", str "http", str "gopher", str "nntp", str "telnet",
   str "imap", str "wais", str "file", str "mms", str "https", str "shttp",
   str "snews", str "prospero", str "rtsp", str "rtspu", str "rsync",
   str "svn", str "svn+ssh", str "sftp", str "nfs", str "git",
   str "git+ssh", str "ws", str "wss"].contains s

/-- `segments[1:-1] = filter(None, segments[1:-1])` of CPython `urljoin`:
drop empty segments except in first and last position. -/
def keepEndsFilter (l : List Str) : List Str :=
  match l with
  | [] => []
  | [a] => [a]
  | a :: rest => a :: (rest.dropLast.filter (fun s => s ≠ [])) ++ [rest.getLastD []]

/-- The dot-segment resolution loop of CPython `urljoin`. -/
def resolveSegments (segments : List Str) : List Str :=
  segments.foldl
    (fun acc seg =>
      if seg = str ".." then acc.dropLast
      else if seg = str "." then acc
      else acc ++ [seg])
    []

/-- CPython `urljoin` (RFC 3986 reference resolution as implemented in
`urllib.parse`, modulo the `params` field which the source never
produces).  Only the traversal uses it, and no verified property
depends on its value. -/
def urljoin (base url : Str) : Str :=
  if base = [] then url
  else if url = [] then base
  else
    let b := urlsplitT base
    let u0 := urlsplitT url
    let scheme := if u0.scheme = [] then b.scheme else u0.scheme
    if ¬ (scheme = b.scheme ∧ usesRelative scheme) then url
    else if usesNetloc scheme ∧ u0.netloc ≠ [] then
      urlunsplit ⟨scheme, u0.netloc, u0.path, u0.query, u0.fragment⟩
    else
      let netloc := if usesNetloc scheme then b.netloc else u0.netloc
      if u0.path = [] then
        let query := if u0.query = [] then b.query else u0.query
        urlunsplit ⟨scheme, netloc, b.path, query, u0.fragment⟩
      else
        let segments :=
          if (str "/").isPrefixOf u0.path then splitSlash u0.path
          else
            let baseParts := splitSlash b.path
            let baseParts :=
              if baseParts.getLastD [] ≠ [] then baseParts.dropLast else baseParts
            keepEndsFilter (baseParts ++ splitSlash u0.path)
        let resolved :=
          let r := resolveSegments segments
          if segments.getLastD [] = str ".." ∨ segments.getLastD [] = str "." then
            r ++ [[]]
          else r
        let joined := List.intercalate (str "/") resolved
        let path := if joined = [] then str "/" else joined
        urlunsplit ⟨scheme, netloc, path, u0.query, u0.fragment⟩

/-!
## Regular-expression model

The ranker's only regex is `re.compile(r'\b' + re.escape(keyword) + r'\b',
re.IGNORECASE)` (line 259).  We model the fragment of Python regex syntax
that escaped keywords can produce: sequences of literal characters and
word-boundary assertions.  `parseRe` recognizes exactly that fragment of
concrete pattern syntax (returning `none` on anything outside it, e.g. an
unescaped metacharacter or an alphabetic escape other than `\b`), and
`runPat` gives its matching semantics.  Patterns of this fragment are
deterministic, so `search` and `fullmatch` need no backtracking.
-/

/-- A compiled pattern element: a literal character (matched
case-insensitively, modelling `re.IGNORECASE`) or `\b`. -/
inductive RElem where
  | lit (c : Char)
  | boundary
deriving DecidableEq, Repr

/-- Python `\w` on the ASCII fragment. -/
def isWordChar (c : Char) : Bool := c.isAlphanum || c = '_'

/-- Word-character test on an optional adjacent character (absent at the
ends of the subject string). -/
def wordOpt : Option Char → Bool
  | some c => isWordChar c
  | none => false

/-- Run a pattern at a position given as a zipper: `left` is the reversed
prefix before the position, `right` the remainder.  Returns the zipper
after the match. -/
def runPat : List RElem → Str → Str → Option (Str × Str)
  | [], left, right => some (left, right)
  | .lit c :: p, left, right =>
    match right with
    | [] => none
    | ch :: r => if lowerC ch = lowerC c then runPat p (ch :: left) r else none
  | .boundary :: p, left, right =>
    if wordOpt left.head? ≠ wordOpt right.head? then runPat p left right else none

/-- Try the pattern at the current position and at every later one. -/
def searchFrom (p : List RElem) : Str → Str → Bool
  | left, right =>
    (runPat p left right).isSome ||
      match right with
      | [] => false
      | ch :: r => searchFrom p (ch :: left) r

/-- `pattern.search(s) is not None`. -/
def reSearch (p : List RElem) (s : Str) : Bool := searchFrom p [] s

/-- `pattern.fullmatch(s) is not None`. -/
def reFullmatch (p : List RElem) (s : Str) : Bool :=
  match runPat p [] s with
  | some (_, []) => true
  | _ => false

/-- The compiled form of `r'\b' + re.escape(keyword) + r'\b'`. -/
def kwPattern (kw : Str) : List RElem :=
  .boundary :: (kw.map RElem.lit ++ [.boundary])

/-- The characters Python 3's `re.escape` prefixes with a backslash
(`_special_chars_map`). -/
def reSpecialChars : List Char :=
  ['(', ')', '[', ']', '{', '}', '?', '*', '+', '-', '|', '^',
   '$', '\\', '.', '&', '~', '#', ' ', '\t', '\n', '\r', '\x0b', '\x0c']

/-- Membership in `_special_chars_map`. -/
def isReSpecial (c : Char) : Bool := reSpecialChars.contains c

/-- `re.escape`. -/
def reEscape (s : Str) : Str :=
  s.flatMap (fun c => if isReSpecial c then ['\\', c] else [c])

/-- The regex metacharacters (special syntax when unescaped). -/
def reMetaChars : List Char :=
  ['.', '^', '$', '*', '+', '?', '{', '}', '[', ']', '\\', '|', '(', ')']

/-- Metacharacter test. -/
def isReMeta (c : Char) : Bool := reMetaChars.contains c

/-- Parser for the literal fragment of Python pattern syntax: `\b`,
backslash-escaped non-alphanumeric characters, and plain non-metacharacter
literals.  Anything else (unescaped metacharacters, character-class
escapes such as `\d`) is outside the fragment and yields `none`. -/
def parseRe : Str → Option (List RElem)
  | [] => some []
  | c :: rest =>
    if c = '\\' then
      match rest with
      | [] => none
      | c2 :: rest2 =>
        if c2 = 'b' then (parseRe rest2).map (fun p => .boundary :: p)
        else if c2.isAlphanum || c2 = '_' then none
        else (parseRe rest2).map (fun p => .lit c2 :: p)
    else if isReMeta c then none
    else (parseRe rest).map (fun p => .lit c :: p)

/-- The concrete pattern string the source builds on line 259:
`r'\b' + re.escape(keyword) + r'\b'`. -/
def kwPatternSrc (kw : Str) : Str := str "\\b" ++ reEscape kw ++ str "\\b"

/-!
## Python dict model

Insertion-ordered association lists with in-place update.  The ranker
builds every dict by `updIn` starting from `[]`, so keys stay distinct
and `updIn` coincides with Python dict assignment.
-/

/-- `m[k] = v` on a Python dict: replace in place, else append. -/
def updIn {α β : Type} [DecidableEq α] : List (α × β) → α → β → List (α × β)
  | [], k, v => [(k, v)]
  | (k', v') :: m, k, v =>
    if k' = k then (k, v) :: m else (k', v') :: updIn m k v

/-- `m.get(k)` on a Python dict. -/
def lookupA {α β : Type} [DecidableEq α] : List (α × β) → α → Option β
  | [], _ => none
  | (k', v) :: m, k => if k = k' then some v else lookupA m k

/-!
## KeywordRanker (`search_keyword_in_hrefs`, lines 242-387)
-/

/-- A raw link record produced by the traversal (lines 228-233). -/
structure RawLink where
  url : Str
  text : Str
  tag : Str
  elementType : Str
deriving DecidableEq, Repr

/-- A deduplicated candidate (the `unique_urls` values, lines 309-314). -/
structure Cand where
  text : Str
  url : Str
  tag : Str
  normalizedUrl : Str
deriving DecidableEq, Repr

/-- A matching item: a candidate with the `path` key added (line 340). -/
structure MatchItem where
  text : Str
  url : Str
  tag : Str
  normalizedUrl : Str
  path : Str
deriving DecidableEq, Repr

/-- `href_data['path'] = path` followed by appending to the matches. -/
def Cand.withPath (c : Cand) (p : Str) : MatchItem :=
  ⟨c.text, c.url, c.tag, c.normalizedUrl, p⟩

/-- The social-media sharing patterns of lines 279-282. -/
def socialPatterns : List Str :=
  [str "facebook.com/sharer", str "twitter.com/intent/tweet",
   str "whatsapp.com/send", str "telegram.me/share"]

/-- `any(share_domain in url.lower() for share_domain in ...)`. -/
def isSocial (url : Str) : Bool :=
  socialPatterns.any (fun p => isSubstr p (lowerS url))

/-- `parsed_url.scheme + "://" + parsed_url.netloc + parsed_url.path`
(line 294). -/
def normUrl (p : SplitResult) : Str :=
  p.scheme ++ str "://" ++ p.netloc ++ p.path

/-- An apostrophe (kept out of string literals). -/
def apos : Char := '\x27'

/-- Exclusion reason of line 283. -/
def socialReason : Str := str "Social media sharing link"

/-- Exclusion reason of lines 297-304 (anchor part, query part, comma
joined when both are present; the anchor entry embeds the fragment). -/
def skipReason (p : SplitResult) : Str :=
  let anchorPart := str "Has anchor (#" ++ p.fragment ++ str ")"
  let queryPart := str "Has query parameters"
  if p.fragment ≠ [] ∧ p.query ≠ [] then anchorPart ++ str ", " ++ queryPart
  else if p.fragment ≠ [] then anchorPart
  else queryPart

/-- Exclusion reason of line 328. -/
def notInPathReason (kw : Str) : Str :=
  str "Keyword " ++ apos :: (kw ++ apos :: str " not in URL path")

/-- Exclusion reason of line 336. -/
def wholePathReason (kw : Str) : Str :=
  str "Keyword " ++ apos :: (kw ++ apos :: str " is the entire path")

/-- The `unique_urls` update of lines 307-314: insert when unseen, replace
when the new text label is strictly longer. -/
def dedupStep (uq : List (Str × Cand)) (nurl : Str) (h : RawLink) :
    List (Str × Cand) :=
  match lookupA uq nurl with
  | none => updIn uq nurl ⟨h.text, h.url, h.tag, nurl⟩
  | some c =>
    if h.text.length > c.text.length then
      updIn uq nurl ⟨h.text, h.url, h.tag, nurl⟩
    else uq

/-- First per-level loop (lines 275-314): social-share exclusion,
parsing, fragment/query exclusion, deduplication.  The accumulator is
`(debug_info['skipped'], unique_urls)`; a parse `ValueError` escapes as
`.error ()`. -/
def loop1 : List RawLink → List (Str × Str) × List (Str × Cand) →
    Except Unit (List (Str × Str) × List (Str × Cand))
  | [], acc => .ok acc
  | h :: hs, (sk, uq) =>
    if isSocial h.url then loop1 hs (updIn sk h.url socialReason, uq)
    else
      match urlsplitE h.url with
      | .error e => .error e
      | .ok p =>
        if p.fragment ≠ [] ∨ p.query ≠ [] then
          loop1 hs (updIn sk h.url (skipReason p), uq)
        else loop1 hs (sk, dedupStep uq (normUrl p) h)

/-- Second per-level loop (lines 321-342): keyword path match and
whole-path exclusion over the deduplicated candidates.  The accumulator
is `(skipped, matching_items, included)`. -/
def loop2 (kw : Str) : List (Str × Cand) →
    List (Str × Str) × List MatchItem × List Str →
    Except Unit (List (Str × Str) × List MatchItem × List Str)
  | [], acc => .ok acc
  | (nurl, c) :: rest, (sk, matching, included) =>
    match urlsplitE nurl with
    | .error e => .error e
    | .ok p =>
      if ¬ reSearch (kwPattern kw) p.path then
        loop2 kw rest (updIn sk nurl (notInPathReason kw), matching, included)
      else
        let segs := (splitSlash p.path).filter (fun s => s ≠ [])
        if segs.length = 1 ∧ reFullmatch (kwPattern kw) (segs.headD []) then
          loop2 kw rest (updIn sk nurl (wholePathReason kw), matching, included)
        else
          loop2 kw rest (sk, matching ++ [c.withPath p.path], included ++ [nurl])

/-- The per-level debug record (lines 267-271, 342). -/
structure DebugInfo where
  totalUrls : Nat
  skipped : List (Str × Str)
  included : List Str
deriving DecidableEq, Repr

/-- All per-level intermediate results. -/
structure LevelOutcome where
  debug : DebugInfo
  uniq : List (Str × Cand)
  matching : List MatchItem
deriving DecidableEq, Repr

/-- One iteration of the `for level, hrefs in level_hrefs.items()` loop
(lines 265-342), up to the statistics block. -/
def processLevel (kw : Str) (hrefs : List RawLink) : Except Unit LevelOutcome := do
  let r1 ← loop1 hrefs ([], [])
  let r2 ← loop2 kw r1.2 (r1.1, [], [])
  .ok ⟨⟨hrefs.length, r2.1, r2.2.2⟩, r1.2, r2.2.1⟩

/-- A `level_stats` entry (lines 348-352). -/
structure StatRec where
  totalUniqueUrls : Nat
  matchingUrls : Nat
  keywordRatio : ℚ
deriving DecidableEq, Repr

/-- The three per-level result dicts accumulated by the level loop. -/
structure RankAcc where
  levelStats : List (Nat × StatRec)
  levelMatches : List (Nat × List MatchItem)
  levelDebug : List (Nat × DebugInfo)
deriving DecidableEq, Repr

/-- The ratio `len(matching_items) / total_valid_urls` of line 346 is
embedded as the exact rational `mkRat` (`mkRat m n = m / n` in `ℚ`); the
reducible `mkRat` lets concrete instances evaluate, and this lemma
records that it is the division the source writes. -/
theorem mkRat_eq_natDiv (m n : ℕ) : mkRat m n = (m : ℚ) / (n : ℚ) := by
  rw [Rat.mkRat_eq_div]
  push_cast
  rfl

/-- The level loop (lines 264-358): process each level, store statistics
when `total_valid_urls > 0`, store matches when nonempty, store debug
info always. -/
def rankLevels (kw : Str) : List (Nat × List RawLink) → RankAcc →
    Except Unit RankAcc
  | [], acc => .ok acc
  | (lvl, hrefs) :: rest, acc => do
    let out ← processLevel kw hrefs
    let total := out.uniq.length
    let acc1 :=
      if 0 < total then
        { acc with
          levelStats := updIn acc.levelStats lvl
            ⟨total, out.matching.length, mkRat out.matching.length total⟩
          levelMatches :=
            if out.matching ≠ [] then updIn acc.levelMatches lvl out.matching
            else acc.levelMatches }
      else acc
    rankLevels kw rest
      { acc1 with levelDebug := updIn acc1.levelDebug lvl out.debug }

/-- `sorted_levels[0][1]['keyword_ratio']` (lines 365-368): the first
ratio of the descending stable sort, i.e. the maximum ratio. -/
def maxRatio : List (Nat × StatRec) → ℚ
  | [] => 0
  | s :: rest => rest.foldl (fun a b => max a b.2.keywordRatio) s.2.keywordRatio

/-- Lines 372-375: `min` over the levels whose ratio equals the highest
(the `[]` branch would keep `sorted_levels[0][0]`; it is unreachable
because the maximum is attained, and the junk value 0 is never used). -/
def chooseTarget (stats : List (Nat × StatRec)) (highest : ℚ) : Nat :=
  match (stats.filter (fun s => s.2.keywordRatio = highest)).map Prod.fst with
  | [] => 0
  | l :: ls => ls.foldl min l

/-- The result dict of lines 380-387. -/
structure RankResult where
  targetLevel : Nat
  allMatches : List (Nat × List MatchItem)
  bestMatches : List MatchItem
  levelStats : List (Nat × StatRec)
  highestRatio : ℚ
  debugInfo : List (Nat × DebugInfo)
deriving DecidableEq, Repr

/-- `search_keyword_in_hrefs` (lines 242-387).  `.ok none` models the
`return None` of line 362; `.error ()` models an uncaught `ValueError`
from `urlparse`. -/
def searchKeywordInHrefs (levels : List (Nat × List RawLink)) (kw : Str) :
    Except Unit (Option RankResult) := do
  let acc ← rankLevels kw levels ⟨[], [], []⟩
  if acc.levelStats = [] then .ok none
  else
    let highest := maxRatio acc.levelStats
    let target := chooseTarget acc.levelStats highest
    .ok (some ⟨target, acc.levelMatches, (lookupA acc.levelMatches target).getD [],
      acc.levelStats, highest, acc.levelDebug⟩)

/-!
## TreeLevelIndexer (`bfs_traverse_dom`, lines 178-240)

A serialized DOM node.  Absent dictionary fields are collapsed to their
defaults (the code only ever reads them through `.get` with an empty
default, and `'attributes' in node` followed by `.get('href', '')`
behaves identically on a missing and on an empty attribute dict).
-/

inductive DomNode where
  | node (nodeType : Nat) (tagName : Str) (attrs : List (Str × Str))
      (linkText : Str) (displayedText : Str) (children : List DomNode)

/-- `node.get('nodeType')`. -/
def DomNode.nodeType : DomNode → Nat
  | .node t _ _ _ _ _ => t

/-- `node.get('tagName', '')`. -/
def DomNode.tagName : DomNode → Str
  | .node _ tg _ _ _ _ => tg

/-- `node.get('attributes', {})`. -/
def DomNode.attrs : DomNode → List (Str × Str)
  | .node _ _ a _ _ _ => a

/-- `node.get('linkText', '')`. -/
def DomNode.linkText : DomNode → Str
  | .node _ _ _ lt _ _ => lt

/-- `node.get('displayedText', '')`. -/
def DomNode.displayedText : DomNode → Str
  | .node _ _ _ _ dt _ => dt

/-- `node['children']` (a node lacking the key is a leaf). -/
def DomNode.children : DomNode → List DomNode
  | .node _ _ _ _ _ cs => cs

mutual

/-- Number of nodes in a tree (termination measure for the queue loop). -/
def DomNode.size : DomNode → Nat
  | .node _ _ _ _ _ cs => 1 + sizeList cs

/-- Number of nodes in a forest. -/
def sizeList : List DomNode → Nat
  | [] => 0
  | n :: ns => DomNode.size n + sizeList ns

end

/-- `attributes.get(name, '')`. -/
def getAttr (attrs : List (Str × Str)) (name : Str) : Str :=
  (lookupA attrs name).getD []

/-- The image extensions excluded on line 190. -/
def imageExtensions : List Str :=
  [str ".jpg", str ".jpeg", str ".png", str ".gif", str ".bmp",
   str ".webp", str ".svg", str ".ico"]

/-- The body of the element branch (lines 203-233): produce a raw link
record for a node, or nothing. -/
def extractLink (baseUrl : Str) (n : DomNode) : Option RawLink :=
  if n.nodeType = 1 then
    let href := getAttr n.attrs (str "href")
    if href ≠ [] ∧ ¬ (str "#").isPrefixOf href ∧
        ¬ (str "javascript:").isPrefixOf href then
      if ¬ imageExtensions.any (fun ext => ext.isSuffixOf (lowerS href)) then
        let linkText0 := if n.linkText ≠ [] then n.linkText else n.displayedText
        let title := getAttr n.attrs (str "title")
        let linkText1 :=
          if linkText0 = [] then (if title ≠ [] then title else str "[No text]")
          else linkText0
        let fullUrl :=
          if ¬ ((str "http://").isPrefixOf href ∨ (str "https://").isPrefixOf href ∨
              (str "//").isPrefixOf href) then
            urljoin baseUrl href
          else href
        let text := if linkText1 ≠ [] then collapseWs linkText1 else linkText1
        some ⟨fullUrl, text, n.tagName,
          if lowerS n.tagName = str "a" then str "anchor" else str "element_with_href"⟩
      else none
    else none
  else none

/-- The records a popped queue entry contributes. -/
def visit (baseUrl : Str) (n : DomNode) (d : Nat) : List (Nat × RawLink) :=
  match extractLink baseUrl n with
  | some r => [(d, r)]
  | none => []

/-- Total node count of a queue. -/
def qSize (q : List (DomNode × Nat)) : Nat :=
  (q.map (fun p => p.1.size)).sum

theorem qSize_append (q r : List (DomNode × Nat)) :
    qSize (q ++ r) = qSize q + qSize r := by
  simp [qSize]

theorem qSize_cons (p : DomNode × Nat) (q : List (DomNode × Nat)) :
    qSize (p :: q) = p.1.size + qSize q := by
  simp [qSize]

theorem qSize_mapChildren (cs : List DomNode) (d : Nat) :
    qSize (cs.map (fun c => (c, d))) = sizeList cs := by
  induction cs with
  | nil => rfl
  | cons c cs ih => rw [List.map_cons, qSize_cons, ih]; rfl

theorem qSize_children_lt (n : DomNode) (d : Nat) (q : List (DomNode × Nat)) :
    qSize (q ++ n.children.map (fun c => (c, d + 1))) < qSize ((n, d) :: q) := by
  rw [qSize_append, qSize_cons, qSize_mapChildren]
  cases n with
  | node t tg a lt dt cs =>
    show qSize q + sizeList cs < DomNode.size (.node t tg a lt dt cs) + qSize q
    rw [DomNode.size]
    omega

/-- The `while queue:` loop (lines 199-238): pop an entry, extract its
link record (if any), enqueue its children one level deeper.  The output
is the flat emission sequence; grouping by level recovers the
`defaultdict(list)` since per-level appends happen in emission order. -/
def bfsLoop (baseUrl : Str) : List (DomNode × Nat) → List (Nat × RawLink)
  | [] => []
  | (n, d) :: q =>
    visit baseUrl n d ++ bfsLoop baseUrl (q ++ n.children.map (fun c => (c, d + 1)))
termination_by q => qSize q
decreasing_by
  exact qSize_children_lt n d q

/-- `bfs_traverse_dom(dom_snapshot, base_url)` as a flat emission list. -/
def bfsTraverseDom (baseUrl : Str) (root : DomNode) : List (Nat × RawLink) :=
  bfsLoop baseUrl [(root, 0)]

/-- `level_hrefs[d]`: the records emitted at depth `d`, in order. -/
def levelOf (out : List (Nat × RawLink)) (d : Nat) : List RawLink :=
  (out.filter (fun p => p.1 = d)).map Prod.snd

/-- Modelled from the spec (§4.1, §8 BFS depth invariant): the nodes
reachable from the given frontier in exactly `d` parent hops, in
document order.  `frontierNodes d [root]` is the set of nodes whose
depth is `d`. -/
def frontierNodes : Nat → List DomNode → List DomNode
  | 0, fr => fr
  | d + 1, fr => frontierNodes d (fr.flatMap DomNode.children)

/-!
## Dictionary lemmas
-/

theorem lookupA_updIn_self {α β : Type} [DecidableEq α]
    (m : List (α × β)) (k : α) (v : β) :
    lookupA (updIn m k v) k = some v := by
  induction m with
  | nil => simp [updIn, lookupA]
  | cons p m ih =>
    obtain ⟨k', v'⟩ := p
    by_cases h : k' = k
    · simp [updIn, h, lookupA]
    · have h2 : ¬ k = k' := fun hh => h hh.symm
      simp [updIn, h, lookupA, h2, ih]

theorem lookupA_updIn_ne {α β : Type} [DecidableEq α]
    (m : List (α × β)) (k k₂ : α) (v : β) (hne : k₂ ≠ k) :
    lookupA (updIn m k v) k₂ = lookupA m k₂ := by
  induction m with
  | nil => simp [updIn, lookupA, hne]
  | cons p m ih =>
    obtain ⟨k', v'⟩ := p
    by_cases h : k' = k
    · subst h
      rw [updIn, if_pos rfl, lookupA, lookupA, if_neg hne, if_neg hne]
    · rw [updIn, if_neg h, lookupA, lookupA, ih]

theorem mem_updIn {α β : Type} [DecidableEq α]
    (m : List (α × β)) (k : α) (v : β) (p : α × β) :
    p ∈ updIn m k v → p ∈ m ∨ p = (k, v) := by
  induction m with
  | nil => intro h; simp [updIn] at h; right; exact h
  | cons q m ih =>
    obtain ⟨k', v'⟩ := q
    by_cases h : k' = k
    · intro hm
      simp only [updIn, if_pos h] at hm
      rcases List.mem_cons.mp hm with h1 | h1
      · right; exact h1
      · left; exact List.mem_cons_of_mem _ h1
    · intro hm
      simp only [updIn, if_neg h] at hm
      rcases List.mem_cons.mp hm with h1 | h1
      · left; exact h1 ▸ List.mem_cons_self _ _
      · rcases ih h1 with h2 | h2
        · left; exact List.mem_cons_of_mem _ h2
        · right; exact h2

theorem mem_keys_updIn {α β : Type} [DecidableEq α]
    (m : List (α × β)) (k : α) (v : β) (a : α) :
    a ∈ (updIn m k v).map Prod.fst ↔ a ∈ m.map Prod.fst ∨ a = k := by
  induction m with
  | nil => simp [updIn]
  | cons p m ih =>
    obtain ⟨k', v'⟩ := p
    by_cases h : k' = k
    · subst h
      rw [updIn, if_pos rfl]
      simp only [List.map_cons, List.mem_cons]
      tauto
    · rw [updIn, if_neg h]
      simp only [List.map_cons, List.mem_cons, ih]
      tauto

theorem keysNodup_updIn {α β : Type} [DecidableEq α]
    (m : List (α × β)) (k : α) (v : β)
    (h : (m.map Prod.fst).Nodup) : ((updIn m k v).map Prod.fst).Nodup := by
  induction m with
  | nil => simp [updIn]
  | cons p m ih =>
    obtain ⟨k', v'⟩ := p
    simp only [List.map_cons, List.nodup_cons] at h
    by_cases hk : k' = k
    · subst hk
      rw [updIn, if_pos rfl]
      simp only [List.map_cons, List.nodup_cons]
      exact h
    · rw [updIn, if_neg hk]
      simp only [List.map_cons, List.nodup_cons]
      refine ⟨fun hmem => ?_, ih h.2⟩
      rcases (mem_keys_updIn m k v k').mp hmem with h2 | h2
      · exact h.1 h2
      · exact hk h2

/-!
## Claim C4: BFS depth and level-order correctness
-/

/-- The entries a queue contributes to the next round. -/
def childEntries (q : List (DomNode × Nat)) : List (DomNode × Nat) :=
  q.flatMap (fun p => p.1.children.map (fun c => (c, p.2 + 1)))

/-- The records a queue emits in the current round. -/
def emitsQ (baseUrl : Str) (q : List (DomNode × Nat)) : List (Nat × RawLink) :=
  q.flatMap (fun p => visit baseUrl p.1 p.2)

theorem bfsLoop_rounds_aux (baseUrl : Str) (q : List (DomNode × Nat)) :
    ∀ c, bfsLoop baseUrl (q ++ c) =
      emitsQ baseUrl q ++ bfsLoop baseUrl (c ++ childEntries q) := by
  induction q with
  | nil => intro c; simp [emitsQ, childEntries]
  | cons p q ih =>
    intro c
    obtain ⟨n, d⟩ := p
    rw [List.cons_append, bfsLoop, List.append_assoc,
      ih (c ++ n.children.map (fun c => (c, d + 1)))]
    simp [emitsQ, childEntries, List.append_assoc]

theorem bfsLoop_rounds (baseUrl : Str) (q : List (DomNode × Nat)) :
    bfsLoop baseUrl q = emitsQ baseUrl q ++ bfsLoop baseUrl (childEntries q) := by
  simpa using bfsLoop_rounds_aux baseUrl q []

theorem sizeList_append (a b : List DomNode) :
    sizeList (a ++ b) = sizeList a + sizeList b := by
  induction a with
  | nil => simp [sizeList]
  | cons n a ih => simp [sizeList, ih]; omega

theorem DomNode.size_pos (n : DomNode) : 1 ≤ n.size := by
  cases n with
  | node t tg a lt dt cs => rw [DomNode.size]; omega

theorem sizeList_flatMap_children (fr : List DomNode) :
    sizeList (fr.flatMap DomNode.children) + fr.length = sizeList fr := by
  induction fr with
  | nil => rfl
  | cons n fr ih =>
    cases n with
    | node t tg a lt dt cs =>
      simp only [List.flatMap_cons, sizeList_append, sizeList, DomNode.size,
        DomNode.children, List.length_cons]
      omega

theorem childEntries_frontier (fr : List DomNode) (d0 : Nat) :
    childEntries (fr.map (fun n => (n, d0))) =
      (fr.flatMap DomNode.children).map (fun c => (c, d0 + 1)) := by
  induction fr with
  | nil => rfl
  | cons n fr ih => simp [childEntries, List.flatMap_cons] at ih ⊢; rw [ih]

theorem mem_emitsQ_level (baseUrl : Str) (fr : List DomNode) (d0 : Nat)
    (p : Nat × RawLink) (h : p ∈ emitsQ baseUrl (fr.map (fun n => (n, d0)))) :
    p.1 = d0 := by
  induction fr with
  | nil => simp [emitsQ] at h
  | cons n fr ih =>
    simp only [List.map_cons, emitsQ, List.flatMap_cons, List.mem_append] at h
    rcases h with h | h
    · unfold visit at h
      cases hx : extractLink baseUrl n with
      | none => rw [hx] at h; simp at h
      | some r => rw [hx] at h; simp at h; rw [h]
    · exact ih (by simpa [emitsQ] using h)

theorem bfsLoop_level_lb (baseUrl : Str) :
    ∀ N fr d0 p, sizeList fr ≤ N →
      p ∈ bfsLoop baseUrl (fr.map (fun n => (n, d0))) → d0 ≤ p.1 := by
  intro N
  induction N with
  | zero =>
    intro fr d0 p hsz hmem
    cases fr with
    | nil => simp [bfsLoop] at hmem
    | cons n fr =>
      exfalso
      have := DomNode.size_pos n
      simp [sizeList] at hsz
      omega
  | succ N ih =>
    intro fr d0 p hsz hmem
    cases hfr : fr with
    | nil => subst hfr; simp [bfsLoop] at hmem
    | cons n fr' =>
      subst hfr
      rw [bfsLoop_rounds] at hmem
      rcases List.mem_append.mp hmem with h | h
      · exact le_of_eq (mem_emitsQ_level baseUrl _ d0 p h).symm
      · rw [childEntries_frontier] at h
        have hsz2 : sizeList ((n :: fr').flatMap DomNode.children) ≤ N := by
          have h1 := sizeList_flatMap_children (n :: fr')
          have h2 : 1 ≤ (n :: fr').length := by simp
          omega
        have := ih _ (d0 + 1) p hsz2 h
        omega

theorem levelOf_emitsQ (baseUrl : Str) (fr : List DomNode) (d0 : Nat) :
    levelOf (emitsQ baseUrl (fr.map (fun n => (n, d0)))) d0 =
      fr.filterMap (extractLink baseUrl) := by
  induction fr with
  | nil => rfl
  | cons n fr ih =>
    simp only [List.map_cons, emitsQ, List.flatMap_cons, levelOf,
      List.filter_append, List.map_append, List.filterMap_cons]
    cases hx : extractLink baseUrl n with
    | none =>
      simp only [visit, hx]
      simpa [levelOf, emitsQ] using ih
    | some r =>
      simp only [visit, hx]
      have : List.filter (fun p => decide (p.1 = d0)) [(d0, r)] = [(d0, r)] := by simp
      rw [this]
      simpa [levelOf, emitsQ] using ih

theorem levelOf_emitsQ_ne (baseUrl : Str) (fr : List DomNode) (d0 d : Nat)
    (hne : d ≠ d0) : levelOf (emitsQ baseUrl (fr.map (fun n => (n, d0)))) d = [] := by
  unfold levelOf
  rw [List.filter_eq_nil_iff.mpr, List.map_nil]
  intro p hp
  have := mem_emitsQ_level baseUrl fr d0 p hp
  simp [this, hne.symm]

theorem bfsLoop_levels (baseUrl : Str) :
    ∀ d fr d0, levelOf (bfsLoop baseUrl (fr.map (fun n => (n, d0)))) (d0 + d) =
      (frontierNodes d fr).filterMap (extractLink baseUrl) := by
  intro d
  induction d with
  | zero =>
    intro fr d0
    rw [bfsLoop_rounds]
    unfold levelOf
    rw [List.filter_append, List.map_append]
    have h1 := levelOf_emitsQ baseUrl fr d0
    unfold levelOf at h1
    rw [Nat.add_zero, h1]
    have h2 : List.filter (fun p => decide (p.1 = d0))
        (bfsLoop baseUrl (childEntries (fr.map (fun n => (n, d0))))) = [] := by
      rw [List.filter_eq_nil_iff.mpr]
      intro p hp
      rw [childEntries_frontier] at hp
      have := bfsLoop_level_lb baseUrl (sizeList (fr.flatMap DomNode.children))
        (fr.flatMap DomNode.children) (d0 + 1) p le_rfl hp
      simp only [decide_eq_true_eq]
      omega
    rw [h2, List.map_nil, List.append_nil]
    rfl
  | succ d ih =>
    intro fr d0
    rw [bfsLoop_rounds]
    unfold levelOf
    rw [List.filter_append, List.map_append]
    have h1 := levelOf_emitsQ_ne baseUrl fr d0 (d0 + (d + 1)) (by omega)
    unfold levelOf at h1
    rw [h1, List.nil_append, childEntries_frontier]
    have h2 : d0 + (d + 1) = (d0 + 1) + d := by omega
    rw [h2]
    have h3 := ih (fr.flatMap DomNode.children) (d0 + 1)
    unfold levelOf at h3
    rw [h3]
    rfl

/-- Claim C4: `bfs_traverse_dom` performs a strict breadth-first
traversal from the root at depth 0, enqueuing children at `depth+1` in
their given order: for every tree, base URL and depth `d`, the records
reported at level `d` are exactly the records of the nodes lying `d`
parent hops from the root, in level-order (document) order —
independent of subtree sizes. -/
theorem claim_C4 (baseUrl : Str) (t : DomNode) (d : Nat) :
    levelOf (bfsTraverseDom baseUrl t) d =
      (frontierNodes d [t]).filterMap (extractLink baseUrl) := by
  have h := bfsLoop_levels baseUrl d [t] 0
  simpa [bfsTraverseDom] using h

/-!
## Claim C5: which nodes yield a RawLinkRecord
-/

/-- Modelled from the spec (§4.1): a node yields a record iff it is an
element node with a non-empty href whose value does not start with `#`
or `javascript:` and whose lowercase form does not end with a recognized
image extension. -/
def yieldsRawLinkRecord (n : DomNode) : Prop :=
  n.nodeType = 1 ∧
  getAttr n.attrs (str "href") ≠ [] ∧
  ¬ (str "#").isPrefixOf (getAttr n.attrs (str "href")) ∧
  ¬ (str "javascript:").isPrefixOf (getAttr n.attrs (str "href")) ∧
  ∀ ext ∈ imageExtensions, ¬ ext.isSuffixOf (lowerS (getAttr n.attrs (str "href")))

theorem isSome_gate {α : Type} (P A B : Prop) [Decidable P] [Decidable A]
    [Decidable B] (e : α) :
    (if P then if A then if B then some e else none else none
      else none).isSome = true ↔ P ∧ A ∧ B := by
  by_cases hP : P <;> by_cases hA : A <;> by_cases hB : B <;> simp [hP, hA, hB]

/-- A tree whose only link carries the in-page href `#section2`. -/
def section2Tree : DomNode :=
  .node 1 (str "HTML") [] [] []
    [.node 1 (str "A") [(str "href", str "#section2")] (str "Jump") [] []]

/-- Claim C5: the traversal yields a RawLinkRecord for a node iff the
node is an element with a non-empty href not starting with `#` or
`javascript:` and not ending (case-insensitively) in an image
extension; in particular a `#section2` link is dropped at traversal
and never reaches the ranker. -/
theorem claim_C5 :
    (∀ (baseUrl : Str) (n : DomNode),
      (extractLink baseUrl n).isSome = true ↔ yieldsRawLinkRecord n) ∧
    bfsTraverseDom (str "https://x.com") section2Tree = [] := by
  constructor
  · intro baseUrl n
    unfold extractLink yieldsRawLinkRecord
    rw [isSome_gate]
    simp only [List.any_eq_true, List.isSuffixOf_iff_suffix]
    constructor
    · rintro ⟨h1, ⟨h2a, h2b, h2c⟩, h3⟩
      push_neg at h3
      exact ⟨h1, h2a, h2b, h2c, h3⟩
    · rintro ⟨h1, h2a, h2b, h2c, h4⟩
      refine ⟨h1, ⟨h2a, h2b, h2c⟩, ?_⟩
      push_neg
      exact h4
  · simp only [bfsTraverseDom, section2Tree, bfsLoop, DomNode.children,
      List.map, List.nil_append, List.append_nil]
    decide

/-!
## Claim C1: the whole-path rule and the ratio denominator
-/

/-- The normalized key of the retained candidate of Scenario 1. -/
def fireReportKey : Str := str "https://x.com/fire/report"

/-- The normalized key of the whole-path-excluded candidate. -/
def fireKey : Str := str "https://x.com/fire"

/-- The surviving `/fire/report` candidate. -/
def fireReportCand : Cand := ⟨str "Report", fireReportKey, str "a", fireReportKey⟩

/-- The surviving `/fire` candidate. -/
def fireCand : Cand := ⟨str "Fire", fireKey, str "a", fireKey⟩

theorem c1_loop2 (sk : List (Str × Str)) :
    loop2 (str "fire") [(fireReportKey, fireReportCand), (fireKey, fireCand)]
      (sk, [], []) =
      .ok (updIn sk fireKey (wholePathReason (str "fire")),
        [fireReportCand.withPath (str "/fire/report")], [fireReportKey]) := rfl

/-- Claim C1: when a level's candidate pool after social-share
exclusion, fragment/query exclusion and deduplication consists of
exactly the candidates `https://x.com/fire/report` and
`https://x.com/fire` with keyword `fire`, then `/fire` is excluded by
the whole-path rule but still counts in the denominator: the level's
total is 2, its ratio is 1/2, and the matches are exactly the
`/fire/report` link. -/
theorem claim_C1 (hrefs : List RawLink) (sk : List (Str × Str))
    (h : loop1 hrefs ([], []) =
      .ok (sk, [(fireReportKey, fireReportCand), (fireKey, fireCand)])) :
    ∃ res, searchKeywordInHrefs [(1, hrefs)] (str "fire") = .ok (some res) ∧
      lookupA res.levelStats 1 = some ⟨2, 1, (1 : ℚ)/2⟩ ∧
      res.bestMatches = [fireReportCand.withPath (str "/fire/report")] ∧
      res.targetLevel = 1 := by
  have hm : mkRat 1 2 = (1 : ℚ)/2 := by
    rw [Rat.mkRat_eq_div]; norm_num
  have hp : processLevel (str "fire") hrefs = .ok
      ⟨⟨hrefs.length, updIn sk fireKey (wholePathReason (str "fire")), [fireReportKey]⟩,
       [(fireReportKey, fireReportCand), (fireKey, fireCand)],
       [fireReportCand.withPath (str "/fire/report")]⟩ := by
    unfold processLevel
    rw [h]
    rfl
  have hr : rankLevels (str "fire") [(1, hrefs)] ⟨[], [], []⟩ = .ok
      ⟨[(1, ⟨2, 1, mkRat 1 2⟩)],
       [(1, [fireReportCand.withPath (str "/fire/report")])],
       [(1, ⟨hrefs.length, updIn sk fireKey (wholePathReason (str "fire")),
         [fireReportKey]⟩)]⟩ := by
    unfold rankLevels
    rw [hp]
    rfl
  refine ⟨⟨1, [(1, [fireReportCand.withPath (str "/fire/report")])],
    [fireReportCand.withPath (str "/fire/report")],
    [(1, ⟨2, 1, mkRat 1 2⟩)], mkRat 1 2,
    [(1, ⟨hrefs.length, updIn sk fireKey (wholePathReason (str "fire")),
      [fireReportKey]⟩)]⟩, ?_, by simp [lookupA, hm], rfl, rfl⟩
  unfold searchKeywordInHrefs
  rw [hr]
  rfl

/-- Witness for C1: the two-anchor input of Scenario 1 realizes the
hypothesis. -/
theorem claim_C1_witness :
    ∃ res, searchKeywordInHrefs
        [(1, [⟨fireReportKey, str "Report", str "a", str "anchor"⟩,
              ⟨fireKey, str "Fire", str "a", str "anchor"⟩])]
        (str "fire") = .ok (some res) ∧
      lookupA res.levelStats 1 = some ⟨2, 1, (1 : ℚ)/2⟩ ∧
      res.bestMatches = [fireReportCand.withPath (str "/fire/report")] ∧
      res.targetLevel = 1 :=
  claim_C1 _ _ rfl

/-!
## Claim C2: malformed URLs (corrected)

The source installs no handler around `urlparse` (lines 286-305): a URL
with a mismatched bracket in its authority makes `urlparse` raise
`ValueError("Invalid IPv6 URL")`, which escapes `search_keyword_in_hrefs`
(modelled as `.error ()`), and every other malformed URL is parsed
permissively and treated like an ordinary candidate — no parse-failure
exclusion reason exists anywhere in the code.
-/

/-- A raw link whose URL `http://[::1` makes Python's `urlparse` raise. -/
def bracketLink : RawLink := ⟨str "http://[::1", str "t", str "a", str "anchor"⟩

/-- A raw link with a malformed URL that `urlparse` accepts permissively
(no scheme is recognized because of the `!`). -/
def junkLink : RawLink := ⟨str "ht!tp://x", str "t", str "a", str "anchor"⟩

/-- Counterexample to C2 as stated: on the level mapping containing only
the malformed URL `http://[::1`, `rank` raises (the `ValueError` of
`urlparse` propagates) instead of logging the URL and continuing. -/
theorem claim_C2_cex :
    searchKeywordInHrefs [(1, [bracketLink])] (str "fire") = .error () := rfl

/-- Claim C2, amended: `rank` performs no special handling of malformed
URLs.  A URL whose authority has mismatched square brackets makes the
parse error escape `rank` (for every keyword), and any other malformed
URL is parsed permissively: it enters the candidate pool as an ordinary
candidate (counted in the denominator) and the only exclusion entry it
can receive is an ordinary keyword-mismatch reason — no parse-failure
reason is ever recorded. -/
theorem claim_C2_amended :
    (∀ kw : Str, searchKeywordInHrefs [(1, [bracketLink])] kw = .error ()) ∧
    searchKeywordInHrefs [(1, [junkLink])] (str "fire") = .ok (some
      ⟨1, [], [], [(1, ⟨1, 0, mkRat 0 1⟩)], mkRat 0 1,
        [(1, ⟨1, [(str "://ht!tp://x", notInPathReason (str "fire"))], []⟩)]⟩) := by
  exact ⟨fun kw => rfl, rfl⟩

/-!
## Claim C3: social-share exclusion (corrected)

The code does drop social-sharing links in step 1 before any
fragment/query analysis, but the recorded reason string is
`"Social media sharing link"`, not the `"social sharing link"` the
claim states.
-/

/-- The facebook sharer URL of Scenario 4 (it also carries a query
string). -/
def fbSharerUrl : Str := str "https://facebook.com/sharer/s.php?u=1"

/-- The sharer link record. -/
def fbSharerLink : RawLink := ⟨fbSharerUrl, str "t", str "a", str "anchor"⟩

/-- Counterexample to C3 as stated: the facebook sharer link is dropped
in step 1, but the recorded exclusion reason is
`"Social media sharing link"`, which differs from the
`"social sharing link"` the claim asserts. -/
theorem claim_C3_cex :
    processLevel (str "fire") [fbSharerLink] =
      .ok ⟨⟨1, [(fbSharerUrl, socialReason)], []⟩, [], []⟩ ∧
    socialReason ≠ str "social sharing link" := by
  exact ⟨rfl, by decide⟩

theorem loop1_social_lookup (hs : List RawLink) :
    ∀ sk0 uq0 sk uq (k : Str),
      loop1 hs (sk0, uq0) = .ok (sk, uq) → isSocial k = true →
      ((∃ h' ∈ hs, h'.url = k) ∨ lookupA sk0 k = some socialReason) →
      lookupA sk k = some socialReason := by
  induction hs with
  | nil =>
    intro sk0 uq0 sk uq k hloop hk hstart
    simp only [loop1, Except.ok.injEq, Prod.mk.injEq] at hloop
    obtain ⟨rfl, rfl⟩ := hloop
    rcases hstart with ⟨h', hmem, -⟩ | hlk
    · exact absurd hmem (List.not_mem_nil _)
    · exact hlk
  | cons h hs ih =>
    intro sk0 uq0 sk uq k hloop hk hstart
    rw [loop1] at hloop
    by_cases hsoc : isSocial h.url = true
    · rw [if_pos hsoc] at hloop
      refine ih _ _ _ _ k hloop hk ?_
      by_cases hk2 : k = h.url
      · right; rw [hk2, lookupA_updIn_self]
      · rcases hstart with ⟨h', hmem, hurl⟩ | hlk
        · rcases List.mem_cons.mp hmem with rfl | hmem2
          · exact absurd hurl (fun hh => hk2 hh.symm)
          · exact Or.inl ⟨h', hmem2, hurl⟩
        · right; rw [lookupA_updIn_ne _ _ _ _ hk2]; exact hlk
    · rw [if_neg hsoc] at hloop
      cases hu : urlsplitE h.url with
      | error e => rw [hu] at hloop; exact absurd hloop (by simp)
      | ok p =>
        rw [hu] at hloop
        dsimp only at hloop
        have hk2 : k ≠ h.url := by
          intro hh; rw [hh] at hk; exact hsoc hk
        by_cases hfq : p.fragment ≠ [] ∨ p.query ≠ []
        · rw [if_pos hfq] at hloop
          refine ih _ _ _ _ k hloop hk ?_
          rcases hstart with ⟨h', hmem, hurl⟩ | hlk
          · rcases List.mem_cons.mp hmem with rfl | hmem2
            · exact absurd hurl (fun hh => hk2 hh.symm)
            · exact Or.inl ⟨h', hmem2, hurl⟩
          · right; rw [lookupA_updIn_ne _ _ _ _ hk2]; exact hlk
        · rw [if_neg hfq] at hloop
          refine ih _ _ _ _ k hloop hk ?_
          rcases hstart with ⟨h', hmem, hurl⟩ | hlk
          · rcases List.mem_cons.mp hmem with rfl | hmem2
            · exact absurd hurl (fun hh => hk2 hh.symm)
            · exact Or.inl ⟨h', hmem2, hurl⟩
          · right; exact hlk

theorem loop1_uq_urls (hs : List RawLink) :
    ∀ sk0 uq0 sk uq,
      loop1 hs (sk0, uq0) = .ok (sk, uq) →
      ∀ e ∈ uq, e ∈ uq0 ∨ ∃ h' ∈ hs, isSocial h'.url = false ∧ e.2.url = h'.url := by
  induction hs with
  | nil =>
    intro sk0 uq0 sk uq hloop e he
    simp only [loop1, Except.ok.injEq, Prod.mk.injEq] at hloop
    obtain ⟨-, rfl⟩ := hloop
    exact Or.inl he
  | cons h hs ih =>
    intro sk0 uq0 sk uq hloop e he
    rw [loop1] at hloop
    by_cases hsoc : isSocial h.url = true
    · rw [if_pos hsoc] at hloop
      rcases ih _ _ _ _ hloop e he with h1 | ⟨h', hmem, hs2, hurl⟩
      · exact Or.inl h1
      · exact Or.inr ⟨h', List.mem_cons_of_mem _ hmem, hs2, hurl⟩
    · rw [if_neg hsoc] at hloop
      cases hu : urlsplitE h.url with
      | error e2 => rw [hu] at hloop; exact absurd hloop (by simp)
      | ok p =>
        rw [hu] at hloop
        dsimp only at hloop
        by_cases hfq : p.fragment ≠ [] ∨ p.query ≠ []
        · rw [if_pos hfq] at hloop
          rcases ih _ _ _ _ hloop e he with h1 | ⟨h', hmem, hs2, hurl⟩
          · exact Or.inl h1
          · exact Or.inr ⟨h', List.mem_cons_of_mem _ hmem, hs2, hurl⟩
        · rw [if_neg hfq] at hloop
          rcases ih _ _ _ _ hloop e he with h1 | ⟨h', hmem, hs2, hurl⟩
          · have hsoc2 : isSocial h.url = false := by simpa using hsoc
            unfold dedupStep at h1
            cases hcur : lookupA uq0 (normUrl p) with
            | none =>
              rw [hcur] at h1
              dsimp only at h1
              rcases mem_updIn _ _ _ _ h1 with h2 | h2
              · exact Or.inl h2
              · exact Or.inr ⟨h, List.mem_cons_self _ _, hsoc2, by rw [h2]⟩
            | some c =>
              rw [hcur] at h1
              dsimp only at h1
              by_cases hlen : h.text.length > c.text.length
              · rw [if_pos hlen] at h1
                rcases mem_updIn _ _ _ _ h1 with h2 | h2
                · exact Or.inl h2
                · exact Or.inr ⟨h, List.mem_cons_self _ _, hsoc2, by rw [h2]⟩
              · rw [if_neg hlen] at h1
                exact Or.inl h1
          · exact Or.inr ⟨h', List.mem_cons_of_mem _ hmem, hs2, hurl⟩

/-- Claim C3, amended: every link whose URL contains a social-sharing
pattern (case-insensitively) is dropped in step 1 with recorded reason
`"Social media sharing link"` — the string the code actually writes —
before and instead of any step-2 fragment/query analysis: its URL never
enters the candidate pool, and the facebook sharer URL of Scenario 4,
which also carries a query string, ends the level with exactly one log
entry carrying the social reason and never the query reason. -/
theorem claim_C3_amended :
    (∀ (hrefs : List RawLink) (sk : List (Str × Str)) (uq : List (Str × Cand)),
      loop1 hrefs ([], []) = .ok (sk, uq) →
      ∀ h ∈ hrefs, isSocial h.url = true →
        lookupA sk h.url = some socialReason ∧ ∀ e ∈ uq, e.2.url ≠ h.url) ∧
    processLevel (str "fire") [fbSharerLink] =
      .ok ⟨⟨1, [(fbSharerUrl, socialReason)], []⟩, [], []⟩ := by
  constructor
  · intro hrefs sk uq hloop h hmem hsoc
    refine ⟨loop1_social_lookup hrefs [] [] sk uq h.url hloop hsoc
      (Or.inl ⟨h, hmem, rfl⟩), ?_⟩
    intro e he heq
    rcases loop1_uq_urls hrefs _ _ _ _ hloop e he with h1 | ⟨h', hm', hs', hurl⟩
    · exact absurd h1 (List.not_mem_nil _)
    · have hux : h'.url = h.url := by rw [← hurl, heq]
      rw [hux, hsoc] at hs'
      exact absurd hs' (by simp)
  · rfl

/-- Witness for the amended C3 at the Scenario 4 input. -/
theorem claim_C3_amended_witness :
    lookupA [(fbSharerUrl, socialReason)] fbSharerLink.url = some socialReason ∧
    ∀ e ∈ ([] : List (Str × Cand)), e.2.url ≠ fbSharerLink.url :=
  claim_C3_amended.1 [fbSharerLink] [(fbSharerUrl, socialReason)] [] rfl
    fbSharerLink (List.mem_cons_self _ _) (by decide)

/-!
## Claim C6: deduplication keeps one candidate, longest text, first seen
-/

/-- A raw link survives steps 1-2 of the level loop: not a social link,
parses, and has neither fragment nor query. -/
def survives (h : RawLink) : Bool :=
  !isSocial h.url &&
    match urlsplitE h.url with
    | .ok p => decide (p.fragment = []) && decide (p.query = [])
    | .error _ => false

/-- The normalized key of a surviving link. -/
def normKeyOf (h : RawLink) : Str :=
  match urlsplitE h.url with
  | .ok p => normUrl p
  | .error _ => []

/-- The surviving links of a level that share the normalized key `k`,
in arrival order. -/
def survivorsWithKey (hs : List RawLink) (k : Str) : List RawLink :=
  hs.filter (fun h => survives h && decide (normKeyOf h = k))

/-- One `unique_urls[k]` update step, seen from the value at key `k`. -/
def dedupCombine (k : Str) (o : Option Cand) (h : RawLink) : Option Cand :=
  match o with
  | none => some ⟨h.text, h.url, h.tag, k⟩
  | some c =>
    if h.text.length > c.text.length then some ⟨h.text, h.url, h.tag, k⟩
    else some c

/-- The value at key `k` after a run of surviving links. -/
def dedupFold (k : Str) (o : Option Cand) (S : List RawLink) : Option Cand :=
  S.foldl (dedupCombine k) o

theorem lookupA_dedupStep_self (uq : List (Str × Cand)) (nurl : Str) (h : RawLink) :
    lookupA (dedupStep uq nurl h) nurl =
      dedupCombine nurl (lookupA uq nurl) h := by
  unfold dedupStep dedupCombine
  cases hcur : lookupA uq nurl with
  | none => simp [lookupA_updIn_self]
  | some c =>
    by_cases hlen : h.text.length > c.text.length
    · simp [hlen, lookupA_updIn_self]
    · simp [hlen, hcur]

theorem lookupA_dedupStep_ne (uq : List (Str × Cand)) (nurl k : Str)
    (h : RawLink) (hne : k ≠ nurl) :
    lookupA (dedupStep uq nurl h) k = lookupA uq k := by
  unfold dedupStep
  cases hcur : lookupA uq nurl with
  | none => simp [lookupA_updIn_ne _ _ _ _ hne]
  | some c =>
    by_cases hlen : h.text.length > c.text.length
    · simp [hlen, lookupA_updIn_ne _ _ _ _ hne]
    · simp [hlen]

theorem loop1_lookup_dedup (hs : List RawLink) :
    ∀ sk0 uq0 sk uq (k : Str),
      loop1 hs (sk0, uq0) = .ok (sk, uq) →
      lookupA uq k = dedupFold k (lookupA uq0 k) (survivorsWithKey hs k) := by
  induction hs with
  | nil =>
    intro sk0 uq0 sk uq k hloop
    simp only [loop1, Except.ok.injEq, Prod.mk.injEq] at hloop
    obtain ⟨-, rfl⟩ := hloop
    rfl
  | cons h hs ih =>
    intro sk0 uq0 sk uq k hloop
    rw [loop1] at hloop
    by_cases hsoc : isSocial h.url = true
    · rw [if_pos hsoc] at hloop
      have hsv : survives h = false := by simp [survives, hsoc]
      rw [survivorsWithKey, List.filter_cons_of_neg (by simp [hsv])]
      exact ih _ _ _ _ k hloop
    · rw [if_neg hsoc] at hloop
      cases hu : urlsplitE h.url with
      | error e => rw [hu] at hloop; exact absurd hloop (by simp)
      | ok p =>
        rw [hu] at hloop
        dsimp only at hloop
        by_cases hfq : p.fragment ≠ [] ∨ p.query ≠ []
        · rw [if_pos hfq] at hloop
          have hsv : survives h = false := by
            unfold survives
            rw [hu]
            rcases hfq with hf | hq
            · simp [hf]
            · simp [hq]
          rw [survivorsWithKey, List.filter_cons_of_neg (by simp [hsv])]
          exact ih _ _ _ _ k hloop
        · rw [if_neg hfq] at hloop
          push_neg at hfq
          have hsv : survives h = true := by
            unfold survives
            rw [hu]
            simp [hfq.1, hfq.2, Bool.not_eq_true] at hsoc ⊢
            exact hsoc
          have hkey : normKeyOf h = normUrl p := by unfold normKeyOf; rw [hu]
          by_cases hk : normUrl p = k
          · rw [survivorsWithKey, List.filter_cons_of_pos (by simp [hsv, hkey, hk])]
            rw [ih _ _ _ _ k hloop]
            rw [← hk, lookupA_dedupStep_self]
            rfl
          · rw [survivorsWithKey,
              List.filter_cons_of_neg (by simp [hsv, hkey]; exact hk)]
            rw [ih _ _ _ _ k hloop, lookupA_dedupStep_ne _ _ _ _ (fun hh => hk hh.symm)]
            rfl

theorem loop1_keys_nodup (hs : List RawLink) :
    ∀ sk0 uq0 sk uq,
      loop1 hs (sk0, uq0) = .ok (sk, uq) →
      (uq0.map Prod.fst).Nodup → (uq.map Prod.fst).Nodup := by
  induction hs with
  | nil =>
    intro sk0 uq0 sk uq hloop hn
    simp only [loop1, Except.ok.injEq, Prod.mk.injEq] at hloop
    obtain ⟨-, rfl⟩ := hloop
    exact hn
  | cons h hs ih =>
    intro sk0 uq0 sk uq hloop hn
    rw [loop1] at hloop
    by_cases hsoc : isSocial h.url = true
    · rw [if_pos hsoc] at hloop
      exact ih _ _ _ _ hloop hn
    · rw [if_neg hsoc] at hloop
      cases hu : urlsplitE h.url with
      | error e => rw [hu] at hloop; exact absurd hloop (by simp)
      | ok p =>
        rw [hu] at hloop
        dsimp only at hloop
        by_cases hfq : p.fragment ≠ [] ∨ p.query ≠ []
        · rw [if_pos hfq] at hloop
          exact ih _ _ _ _ hloop hn
        · rw [if_neg hfq] at hloop
          refine ih _ _ _ _ hloop ?_
          unfold dedupStep
          cases lookupA uq0 (normUrl p) with
          | none => exact keysNodup_updIn _ _ _ hn
          | some c =>
            dsimp only
            by_cases hlen : h.text.length > c.text.length
            · rw [if_pos hlen]; exact keysNodup_updIn _ _ _ hn
            · rw [if_neg hlen]; exact hn

theorem dedupFold_append (k : Str) (o : Option Cand) (S : List RawLink)
    (x : RawLink) :
    dedupFold k o (S ++ [x]) = dedupCombine k (dedupFold k o S) x := by
  unfold dedupFold
  rw [List.foldl_append]
  rfl

theorem dedupFold_none_spec (k : Str) (S : List RawLink) :
    S = [] ∨
    ∃ pre h₀ post, S = pre ++ h₀ :: post ∧
      dedupFold k none S = some ⟨h₀.text, h₀.url, h₀.tag, k⟩ ∧
      (∀ h' ∈ pre, h'.text.length < h₀.text.length) ∧
      (∀ h' ∈ S, h'.text.length ≤ h₀.text.length) := by
  induction S using List.reverseRecOn with
  | nil => exact Or.inl rfl
  | append_singleton S x ih =>
    right
    rcases ih with rfl | ⟨pre, h₀, post, hdec, hfold, hpre, hall⟩
    · refine ⟨[], x, [], by simp, ?_, by simp, ?_⟩
      · rfl
      · intro h' hh'
        simp at hh'
        rw [hh']
    · rw [dedupFold_append, hfold]
      unfold dedupCombine
      by_cases hlen : x.text.length > h₀.text.length
      · refine ⟨S, x, [], by simp, by simp [hlen], ?_, ?_⟩
        · intro h' hh'
          exact lt_of_le_of_lt (hall h' hh') hlen
        · intro h' hh'
          rcases List.mem_append.mp hh' with hh | hh
          · exact le_of_lt (lt_of_le_of_lt (hall h' hh) hlen)
          · simp at hh; rw [hh]
      · refine ⟨pre, h₀, post ++ [x], by rw [hdec]; simp, by simp [hlen], hpre, ?_⟩
        intro h' hh'
        rcases List.mem_append.mp hh' with hh | hh
        · exact hall h' hh
        · simp at hh; rw [hh]; omega

/-- Claim C6: among the surviving links of a level that share a
normalized URL, exactly one NormalizedCandidate remains after
deduplication (the key map is duplicate-free), and it carries the
longest competing text label; when lengths tie, the first-seen link's
data is kept (every survivor before the winner is strictly shorter). -/
theorem claim_C6 (hrefs : List RawLink) (sk : List (Str × Str))
    (uq : List (Str × Cand)) (k : Str)
    (hloop : loop1 hrefs ([], []) = .ok (sk, uq)) :
    (uq.map Prod.fst).Nodup ∧
    (survivorsWithKey hrefs k = [] → lookupA uq k = none) ∧
    (survivorsWithKey hrefs k ≠ [] →
      ∃ pre h₀ post, survivorsWithKey hrefs k = pre ++ h₀ :: post ∧
        lookupA uq k = some ⟨h₀.text, h₀.url, h₀.tag, k⟩ ∧
        (∀ h' ∈ pre, h'.text.length < h₀.text.length) ∧
        (∀ h' ∈ survivorsWithKey hrefs k, h'.text.length ≤ h₀.text.length)) := by
  have hlk := loop1_lookup_dedup hrefs [] [] sk uq k hloop
  refine ⟨loop1_keys_nodup hrefs [] [] sk uq hloop (by simp), ?_, ?_⟩
  · intro hempty
    rw [hlk, hempty]
    rfl
  · intro hne
    rcases dedupFold_none_spec k (survivorsWithKey hrefs k) with hempty | hspec
    · exact absurd hempty hne
    · rcases hspec with ⟨pre, h₀, post, hdec, hfold, hpre, hall⟩
      exact ⟨pre, h₀, post, hdec, by rw [hlk]; exact hfold, hpre, hall⟩

/-- Witness for C6: two same-key links where the second has the longer
label; the survivor is the second link's data. -/
theorem claim_C6_witness :
    ([(fireKey, (⟨str "Long fire", fireKey, str "a", fireKey⟩ : Cand))].map
      Prod.fst).Nodup ∧
    (survivorsWithKey
        [⟨fireKey, str "ab", str "a", str "anchor"⟩,
         ⟨fireKey, str "Long fire", str "a", str "anchor"⟩] fireKey = [] →
      lookupA [(fireKey, (⟨str "Long fire", fireKey, str "a", fireKey⟩ : Cand))]
        fireKey = none) ∧
    (survivorsWithKey
        [⟨fireKey, str "ab", str "a", str "anchor"⟩,
         ⟨fireKey, str "Long fire", str "a", str "anchor"⟩] fireKey ≠ [] →
      ∃ pre h₀ post, survivorsWithKey
          [⟨fireKey, str "ab", str "a", str "anchor"⟩,
           ⟨fireKey, str "Long fire", str "a", str "anchor"⟩] fireKey =
            pre ++ h₀ :: post ∧
        lookupA [(fireKey, (⟨str "Long fire", fireKey, str "a", fireKey⟩ : Cand))]
          fireKey = some ⟨h₀.text, h₀.url, h₀.tag, fireKey⟩ ∧
        (∀ h' ∈ pre, h'.text.length < h₀.text.length) ∧
        (∀ h' ∈ survivorsWithKey
            [⟨fireKey, str "ab", str "a", str "anchor"⟩,
             ⟨fireKey, str "Long fire", str "a", str "anchor"⟩] fireKey,
          h'.text.length ≤ h₀.text.length)) :=
  claim_C6
    [⟨fireKey, str "ab", str "a", str "anchor"⟩,
     ⟨fireKey, str "Long fire", str "a", str "anchor"⟩]
    [] [(fireKey, ⟨str "Long fire", fireKey, str "a", fireKey⟩)] fireKey rfl

/-!
## Claim C7: maximum ratio, ties broken toward the root
-/

theorem exceptBind_ok {ε α β : Type} (a : α) (f : α → Except ε β) :
    (Except.ok a >>= f : Except ε β) = f a := rfl

theorem exceptBind_error {ε α β : Type} (e : ε) (f : α → Except ε β) :
    ((Except.error e : Except ε α) >>= f) = .error e := rfl

theorem foldl_max_le_init (l : List (Nat × StatRec)) (a : ℚ) :
    a ≤ l.foldl (fun x b => max x b.2.keywordRatio) a := by
  induction l generalizing a with
  | nil => exact le_refl a
  | cons b l ih => exact le_trans (le_max_left _ _) (ih (max a b.2.keywordRatio))

theorem foldl_max_mem_le (l : List (Nat × StatRec)) (a : ℚ) (s : Nat × StatRec)
    (hs : s ∈ l) : s.2.keywordRatio ≤ l.foldl (fun x b => max x b.2.keywordRatio) a := by
  induction l generalizing a with
  | nil => exact absurd hs (List.not_mem_nil _)
  | cons b l ih =>
    rcases List.mem_cons.mp hs with rfl | hs2
    · exact le_trans (le_max_right _ _) (foldl_max_le_init l _)
    · exact ih _ hs2

theorem maxRatio_ge (stats : List (Nat × StatRec)) (s : Nat × StatRec)
    (hs : s ∈ stats) : s.2.keywordRatio ≤ maxRatio stats := by
  cases stats with
  | nil => exact absurd hs (List.not_mem_nil _)
  | cons b rest =>
    rcases List.mem_cons.mp hs with rfl | hs2
    · exact foldl_max_le_init rest _
    · exact foldl_max_mem_le rest _ s hs2

theorem foldl_max_mem (l : List (Nat × StatRec)) (a : ℚ) :
    l.foldl (fun x b => max x b.2.keywordRatio) a = a ∨
      ∃ s ∈ l, l.foldl (fun x b => max x b.2.keywordRatio) a = s.2.keywordRatio := by
  induction l generalizing a with
  | nil => exact Or.inl rfl
  | cons b l ih =>
    rcases ih (max a b.2.keywordRatio) with h | ⟨s, hsmem, hval⟩
    · rcases max_choice a b.2.keywordRatio with hm | hm
      · exact Or.inl (by rw [List.foldl_cons, h, hm])
      · exact Or.inr ⟨b, List.mem_cons_self _ _, by rw [List.foldl_cons, h, hm]⟩
    · exact Or.inr ⟨s, List.mem_cons_of_mem _ hsmem, by rw [List.foldl_cons, hval]⟩

theorem maxRatio_attained (stats : List (Nat × StatRec)) (hne : stats ≠ []) :
    ∃ s ∈ stats, s.2.keywordRatio = maxRatio stats := by
  cases stats with
  | nil => exact absurd rfl hne
  | cons b rest =>
    rcases foldl_max_mem rest b.2.keywordRatio with h | ⟨s, hsmem, hval⟩
    · exact ⟨b, List.mem_cons_self _ _, h.symm⟩
    · exact ⟨s, List.mem_cons_of_mem _ hsmem, hval.symm⟩

theorem foldl_min_mem (l : List Nat) (a : Nat) : l.foldl min a ∈ a :: l := by
  induction l generalizing a with
  | nil => exact List.mem_cons_self _ _
  | cons b l ih =>
    rw [List.foldl_cons]
    rcases List.mem_cons.mp (ih (min a b)) with h | h
    · rcases min_choice a b with hm | hm
      · rw [h, hm]; exact List.mem_cons_self _ _
      · rw [h, hm]; exact List.mem_cons_of_mem _ (List.mem_cons_self _ _)
    · exact List.mem_cons_of_mem _ (List.mem_cons_of_mem _ h)

theorem foldl_min_le (l : List Nat) (a : Nat) :
    ∀ x ∈ a :: l, l.foldl min a ≤ x := by
  induction l generalizing a with
  | nil =>
    intro x hx
    rcases List.mem_cons.mp hx with rfl | h
    · exact le_refl x
    · exact absurd h (List.not_mem_nil _)
  | cons b l ih =>
    intro x hx
    rw [List.foldl_cons]
    rcases List.mem_cons.mp hx with rfl | h2
    · exact le_trans (ih (min x b) _ (List.mem_cons_self _ _)) (min_le_left _ _)
    · rcases List.mem_cons.mp h2 with rfl | h3
      · exact le_trans (ih (min a x) _ (List.mem_cons_self _ _)) (min_le_right _ _)
      · exact ih (min a b) x (List.mem_cons_of_mem _ h3)

/-- Claim C7: whenever `rank` returns a result, the selected level's
ratio is the maximum over all scored levels, and among levels whose
ratio equals that maximum exactly, the selected level is the smallest
depth. -/
theorem claim_C7 (levels : List (Nat × List RawLink)) (kw : Str)
    (res : RankResult) (h : searchKeywordInHrefs levels kw = .ok (some res)) :
    (∀ s ∈ res.levelStats, s.2.keywordRatio ≤ res.highestRatio) ∧
    (∃ s ∈ res.levelStats, s.1 = res.targetLevel ∧
      s.2.keywordRatio = res.highestRatio) ∧
    (∀ s ∈ res.levelStats, s.2.keywordRatio = res.highestRatio →
      res.targetLevel ≤ s.1) := by
  unfold searchKeywordInHrefs at h
  cases hacc : rankLevels kw levels ⟨[], [], []⟩ with
  | error e =>
    rw [hacc, exceptBind_error] at h
    exact absurd h (by simp)
  | ok acc =>
    rw [hacc, exceptBind_ok] at h
    by_cases hst : acc.levelStats = []
    · rw [if_pos hst] at h
      exact absurd h (by simp)
    · rw [if_neg hst] at h
      dsimp only at h
      simp only [Except.ok.injEq, Option.some.injEq] at h
      subst h
      refine ⟨fun s hs => maxRatio_ge _ s hs, ?_, ?_⟩
      · -- the selected level attains the maximum
        have hatt := maxRatio_attained acc.levelStats hst
        have hfne : (acc.levelStats.filter
            (fun s => decide (s.2.keywordRatio = maxRatio acc.levelStats))).map
              Prod.fst ≠ [] := by
          rcases hatt with ⟨s, hsmem, hsval⟩
          intro hcontra
          have : s.1 ∈ (acc.levelStats.filter
              (fun s => decide (s.2.keywordRatio = maxRatio acc.levelStats))).map
                Prod.fst :=
            List.mem_map_of_mem _ (List.mem_filter.mpr ⟨hsmem, by simp [hsval]⟩)
          rw [hcontra] at this
          exact absurd this (List.not_mem_nil _)
        unfold chooseTarget
        cases hfl : (acc.levelStats.filter
            (fun s => decide (s.2.keywordRatio = maxRatio acc.levelStats))).map
              Prod.fst with
        | nil => exact absurd hfl hfne
        | cons l ls =>
          have hmem := foldl_min_mem ls l
          rw [← hfl] at hmem
          rcases List.mem_map.mp hmem with ⟨s, hsf, hsval⟩
          have hsplit := List.mem_filter.mp hsf
          exact ⟨s, hsplit.1, hsval, by simpa using hsplit.2⟩
      · -- minimality among the tied levels
        intro s hs hval
        have hsf : s ∈ acc.levelStats.filter
            (fun s => decide (s.2.keywordRatio = maxRatio acc.levelStats)) :=
          List.mem_filter.mpr ⟨hs, by simp [hval]⟩
        have hsm : s.1 ∈ (acc.levelStats.filter
            (fun s => decide (s.2.keywordRatio = maxRatio acc.levelStats))).map
              Prod.fst := List.mem_map_of_mem _ hsf
        unfold chooseTarget
        cases hfl : (acc.levelStats.filter
            (fun s => decide (s.2.keywordRatio = maxRatio acc.levelStats))).map
              Prod.fst with
        | nil => rw [hfl] at hsm; exact absurd hsm (List.not_mem_nil _)
        | cons l ls =>
          rw [hfl] at hsm
          exact foldl_min_le ls l s.1 hsm

/-- Witness for C7: two levels with the same ratio 1/1; the selected
level is the shallower one. -/
theorem claim_C7_witness :
    (∀ s ∈ [(1, (⟨1, 1, mkRat 1 1⟩ : StatRec)), (2, ⟨1, 1, mkRat 1 1⟩)],
      s.2.keywordRatio ≤ mkRat 1 1) ∧
    (∃ s ∈ [(1, (⟨1, 1, mkRat 1 1⟩ : StatRec)), (2, ⟨1, 1, mkRat 1 1⟩)],
      s.1 = 1 ∧ s.2.keywordRatio = mkRat 1 1) ∧
    (∀ s ∈ [(1, (⟨1, 1, mkRat 1 1⟩ : StatRec)), (2, ⟨1, 1, mkRat 1 1⟩)],
      s.2.keywordRatio = mkRat 1 1 → 1 ≤ s.1) := by
  have h := claim_C7
    [(1, [⟨str "https://a.com/fire/x", str "t", str "a", str "anchor"⟩]),
     (2, [⟨str "https://a.com/fire/y", str "t", str "a", str "anchor"⟩])]
    (str "fire")
    ⟨1, [(1, [⟨str "t", str "https://a.com/fire/x", str "a",
        str "https://a.com/fire/x", str "/fire/x"⟩]),
      (2, [⟨str "t", str "https://a.com/fire/y", str "a",
        str "https://a.com/fire/y", str "/fire/y"⟩])],
      [⟨str "t", str "https://a.com/fire/x", str "a",
        str "https://a.com/fire/x", str "/fire/x"⟩],
      [(1, ⟨1, 1, mkRat 1 1⟩), (2, ⟨1, 1, mkRat 1 1⟩)], mkRat 1 1,
      [(1, ⟨1, [], [str "https://a.com/fire/x"]⟩),
       (2, ⟨1, [], [str "https://a.com/fire/y"]⟩)]⟩
    rfl
  exact h

/-!
## Claim C8: empty candidate pools are omitted, absent result
-/

/-- The size of a level's deduplicated candidate pool (`total_valid_urls`,
line 318), wrapped in the same error monad as the level processing. -/
def poolOf (kw : Str) (hrefs : List RawLink) : Except Unit Nat :=
  (processLevel kw hrefs).map (fun out => out.uniq.length)

theorem rankLevels_stats_inv (kw : Str) (lvls : List (Nat × List RawLink)) :
    ∀ acc acc', rankLevels kw lvls acc = .ok acc' →
      ∀ lvl, lookupA acc'.levelStats lvl ≠ none ↔
        (lookupA acc.levelStats lvl ≠ none ∨
          ∃ p ∈ lvls, p.1 = lvl ∧ ∃ n, poolOf kw p.2 = .ok (n + 1)) := by
  induction lvls with
  | nil =>
    intro acc acc' hrun lvl
    simp only [rankLevels, Except.ok.injEq] at hrun
    subst hrun
    simp
  | cons p rest ih =>
    intro acc acc' hrun lvl
    obtain ⟨lvl0, hrefs⟩ := p
    rw [rankLevels] at hrun
    cases hout : processLevel kw hrefs with
    | error e =>
      rw [hout, exceptBind_error] at hrun
      exact absurd hrun (by simp)
    | ok out =>
      rw [hout, exceptBind_ok] at hrun
      dsimp only at hrun
      have hpool : poolOf kw hrefs = .ok out.uniq.length := by
        unfold poolOf
        rw [hout]
        rfl
      by_cases htot : 0 < out.uniq.length
      · rw [if_pos htot] at hrun
        rw [ih _ _ hrun lvl]
        dsimp only
        by_cases hlvl : lvl = lvl0
        · subst hlvl
          simp only [lookupA_updIn_self]
          constructor
          · intro _
            right
            refine ⟨(lvl, hrefs), List.mem_cons_self _ _, rfl, out.uniq.length - 1, ?_⟩
            rw [hpool]
            congr 1
            omega
          · intro _
            left
            simp
        · rw [lookupA_updIn_ne _ _ _ _ hlvl]
          constructor
          · rintro (hin | ⟨q, hq, hq1, n, hqn⟩)
            · exact Or.inl hin
            · exact Or.inr ⟨q, List.mem_cons_of_mem _ hq, hq1, n, hqn⟩
          · rintro (hin | ⟨q, hq, hq1, n, hqn⟩)
            · exact Or.inl hin
            · rcases List.mem_cons.mp hq with rfl | hq2
              · exact (hlvl (show lvl = lvl0 from hq1.symm)).elim
              · exact Or.inr ⟨q, hq2, hq1, n, hqn⟩
      · rw [if_neg htot] at hrun
        rw [ih _ _ hrun lvl]
        dsimp only
        constructor
        · rintro (hin | ⟨q, hq, hq1, n, hqn⟩)
          · exact Or.inl hin
          · exact Or.inr ⟨q, List.mem_cons_of_mem _ hq, hq1, n, hqn⟩
        · rintro (hin | ⟨q, hq, hq1, n, hqn⟩)
          · exact Or.inl hin
          · rcases List.mem_cons.mp hq with rfl | hq2
            · rw [hpool] at hqn
              simp only [Except.ok.injEq] at hqn
              omega
            · exact Or.inr ⟨q, hq2, hq1, n, hqn⟩

theorem rankLevels_processed (kw : Str) (lvls : List (Nat × List RawLink)) :
    ∀ acc acc', rankLevels kw lvls acc = .ok acc' →
      ∀ p ∈ lvls, ∃ out, processLevel kw p.2 = .ok out := by
  induction lvls with
  | nil =>
    intro acc acc' hrun p hp
    exact absurd hp (List.not_mem_nil _)
  | cons q rest ih =>
    intro acc acc' hrun p hp
    obtain ⟨lvl0, hrefs⟩ := q
    rw [rankLevels] at hrun
    cases hout : processLevel kw hrefs with
    | error e =>
      rw [hout, exceptBind_error] at hrun
      exact absurd hrun (by simp)
    | ok out =>
      rw [hout, exceptBind_ok] at hrun
      dsimp only at hrun
      rcases List.mem_cons.mp hp with rfl | hp2
      · exact ⟨out, hout⟩
      · exact ih _ _ hrun p hp2

theorem lookupA_head_ne_none {α β : Type} [DecidableEq α] (k : α) (v : β)
    (m : List (α × β)) : lookupA ((k, v) :: m) k ≠ none := by
  simp [lookupA]

/-- Claim C8: a level whose deduplicated pool is empty receives no
LevelStats entry (it is omitted from the comparison rather than scored
as zero), and `rank` returns `None` exactly when every level's pool is
empty. -/
theorem claim_C8 (levels : List (Nat × List RawLink)) (kw : Str)
    (r : Option RankResult) (h : searchKeywordInHrefs levels kw = .ok r) :
    (r = none ↔ ∀ p ∈ levels, poolOf kw p.2 = .ok 0) ∧
    (∀ res, r = some res → ∀ lvl,
      (lookupA res.levelStats lvl ≠ none ↔
        ∃ p ∈ levels, p.1 = lvl ∧ ∃ n, poolOf kw p.2 = .ok (n + 1))) := by
  unfold searchKeywordInHrefs at h
  cases hacc : rankLevels kw levels ⟨[], [], []⟩ with
  | error e =>
    rw [hacc, exceptBind_error] at h
    exact absurd h (by simp)
  | ok acc =>
    rw [hacc, exceptBind_ok] at h
    have hinv := rankLevels_stats_inv kw levels _ _ hacc
    simp only [lookupA] at hinv
    have hkeyiff : ∀ lvl, lookupA acc.levelStats lvl ≠ none ↔
        ∃ p ∈ levels, p.1 = lvl ∧ ∃ n, poolOf kw p.2 = .ok (n + 1) := by
      intro lvl
      rw [hinv lvl]
      simp
    by_cases hst : acc.levelStats = []
    · rw [if_pos hst] at h
      simp only [Except.ok.injEq] at h
      subst h
      constructor
      · constructor
        · intro _ p hp
          rcases rankLevels_processed kw levels _ _ hacc p hp with ⟨out, hout⟩
          have hpool : poolOf kw p.2 = .ok out.uniq.length := by
            unfold poolOf; rw [hout]; rfl
          cases hn : out.uniq.length with
          | zero => rw [hpool, hn]
          | succ n =>
            exfalso
            have : lookupA acc.levelStats p.1 ≠ none :=
              (hkeyiff p.1).mpr ⟨p, hp, rfl, n, by rw [hpool, hn]⟩
            rw [hst] at this
            exact this rfl
        · intro _
          rfl
      · intro res hres
        exact absurd hres (by simp)
    · rw [if_neg hst] at h
      dsimp only at h
      simp only [Except.ok.injEq] at h
      subst h
      constructor
      · constructor
        · intro hcontra
          exact absurd hcontra (by simp)
        · intro hall
          exfalso
          cases hcs : acc.levelStats with
          | nil => exact hst hcs
          | cons b m =>
            have hb : lookupA acc.levelStats b.1 ≠ none := by
              rw [hcs]
              obtain ⟨k, v⟩ := b
              exact lookupA_head_ne_none k v m
            rcases (hkeyiff b.1).mp hb with ⟨p, hp, -, n, hn⟩
            rw [hall p hp] at hn
            simp only [Except.ok.injEq] at hn
            omega
      · intro res hres lvl
        simp only [Option.some.injEq] at hres
        subst hres
        exact hkeyiff lvl

/-- Witness for C8: a level whose only link carries a fragment has an
empty pool, and `rank` returns `None`. -/
theorem claim_C8_witness :
    ((none : Option RankResult) = none ↔
      ∀ p ∈ [(1, [(⟨str "https://a.com/x#top", str "t", str "a", str "anchor"⟩ :
        RawLink)])], poolOf (str "fire") p.2 = .ok 0) ∧
    (∀ res, (none : Option RankResult) = some res → ∀ lvl,
      (lookupA res.levelStats lvl ≠ none ↔
        ∃ p ∈ [(1, [(⟨str "https://a.com/x#top", str "t", str "a", str "anchor"⟩ :
          RawLink)])], p.1 = lvl ∧ ∃ n, poolOf (str "fire") p.2 = .ok (n + 1))) :=
  claim_C8
    [(1, [⟨str "https://a.com/x#top", str "t", str "a", str "anchor"⟩])]
    (str "fire") none rfl

/-!
## Claim C10: the exclusion log is a dict keyed by URL string
-/

theorem loop1_sk_nodup (hs : List RawLink) :
    ∀ sk0 uq0 sk uq,
      loop1 hs (sk0, uq0) = .ok (sk, uq) →
      (sk0.map Prod.fst).Nodup → (sk.map Prod.fst).Nodup := by
  induction hs with
  | nil =>
    intro sk0 uq0 sk uq hloop hn
    simp only [loop1, Except.ok.injEq, Prod.mk.injEq] at hloop
    obtain ⟨rfl, -⟩ := hloop
    exact hn
  | cons h hs ih =>
    intro sk0 uq0 sk uq hloop hn
    rw [loop1] at hloop
    by_cases hsoc : isSocial h.url = true
    · rw [if_pos hsoc] at hloop
      exact ih _ _ _ _ hloop (keysNodup_updIn _ _ _ hn)
    · rw [if_neg hsoc] at hloop
      cases hu : urlsplitE h.url with
      | error e => rw [hu] at hloop; exact absurd hloop (by simp)
      | ok p =>
        rw [hu] at hloop
        dsimp only at hloop
        by_cases hfq : p.fragment ≠ [] ∨ p.query ≠ []
        · rw [if_pos hfq] at hloop
          exact ih _ _ _ _ hloop (keysNodup_updIn _ _ _ hn)
        · rw [if_neg hfq] at hloop
          exact ih _ _ _ _ hloop hn

theorem loop2_sk_nodup (kw : Str) (items : List (Str × Cand)) :
    ∀ sk0 m0 i0 sk m i,
      loop2 kw items (sk0, m0, i0) = .ok (sk, m, i) →
      (sk0.map Prod.fst).Nodup → (sk.map Prod.fst).Nodup := by
  induction items with
  | nil =>
    intro sk0 m0 i0 sk m i hloop hn
    simp only [loop2, Except.ok.injEq, Prod.mk.injEq] at hloop
    obtain ⟨rfl, -⟩ := hloop
    exact hn
  | cons q rest ih =>
    intro sk0 m0 i0 sk m i hloop hn
    obtain ⟨nurl, c⟩ := q
    rw [loop2] at hloop
    cases hu : urlsplitE nurl with
    | error e => rw [hu] at hloop; exact absurd hloop (by simp)
    | ok p =>
      rw [hu] at hloop
      dsimp only at hloop
      by_cases hsearch : ¬ reSearch (kwPattern kw) p.path
      · rw [if_pos hsearch] at hloop
        exact ih _ _ _ _ _ _ hloop (keysNodup_updIn _ _ _ hn)
      · rw [if_neg hsearch] at hloop
        by_cases hwhole : ((splitSlash p.path).filter (fun s => s ≠ [])).length = 1 ∧
            reFullmatch (kwPattern kw)
              (((splitSlash p.path).filter (fun s => s ≠ [])).headD [])
        · rw [if_pos hwhole] at hloop
          exact ih _ _ _ _ _ _ hloop (keysNodup_updIn _ _ _ hn)
        · rw [if_neg hwhole] at hloop
          exact ih _ _ _ _ _ _ hloop hn

/-- Claim C10 (implicit): each level's exclusion log is a dict keyed by
the URL string, so it holds at most one entry per distinct URL per
level, and recording an exclusion for an already-present URL overwrites
the earlier reason with the most recent one. -/
theorem claim_C10 :
    (∀ (kw : Str) (hrefs : List RawLink) (out : LevelOutcome),
      processLevel kw hrefs = .ok out → (out.debug.skipped.map Prod.fst).Nodup) ∧
    (∀ (m : List (Str × Str)) (k v₁ v₂ : Str),
      lookupA (updIn (updIn m k v₁) k v₂) k = some v₂) := by
  constructor
  · intro kw hrefs out hout
    unfold processLevel at hout
    cases h1 : loop1 hrefs ([], []) with
    | error e => rw [h1, exceptBind_error] at hout; exact absurd hout (by simp)
    | ok r1 =>
      rw [h1, exceptBind_ok] at hout
      obtain ⟨sk1, uq⟩ := r1
      cases h2 : loop2 kw uq (sk1, [], []) with
      | error e =>
        rw [h2] at hout
        exact absurd hout (by simp [exceptBind_error])
      | ok r2 =>
        rw [h2, exceptBind_ok] at hout
        dsimp only at hout
        simp only [Except.ok.injEq] at hout
        subst hout
        obtain ⟨sk2, m2, i2⟩ := r2
        exact loop2_sk_nodup kw uq sk1 [] [] sk2 m2 i2 h2
          (loop1_sk_nodup hrefs [] [] sk1 uq h1 (by simp))
  · intro m k v₁ v₂
    exact lookupA_updIn_self _ _ _

/-- Witness for C10: two duplicate fragment-carrying links yield a
single log entry, and a repeated write at one key keeps the newest
reason. -/
theorem claim_C10_witness :
    ((⟨⟨2, [(str "https://a.com/x#f", str "Has anchor (#f)")], []⟩, [], []⟩ :
      LevelOutcome).debug.skipped.map Prod.fst).Nodup ∧
    lookupA (updIn (updIn [] (str "u") (str "a")) (str "u") (str "b"))
      (str "u") = some (str "b") :=
  ⟨claim_C10.1 (str "fire")
    [⟨str "https://a.com/x#f", str "t", str "a", str "anchor"⟩,
     ⟨str "https://a.com/x#f", str "t", str "a", str "anchor"⟩] _ rfl,
   claim_C10.2 [] (str "u") (str "a") (str "b")⟩

/-!
## Claim C9: keyword escaping and literal word-boundary matching
-/

theorem isReSpecial_props (c : Char) (h : isReSpecial c = true) :
    c ≠ 'b' ∧ (c.isAlphanum || c = '_') = false := by
  rw [isReSpecial] at h
  have h2 : c ∈ reSpecialChars := List.mem_of_elem_eq_true h
  fin_cases h2 <;> exact ⟨by decide, by decide⟩

theorem isReMeta_special (c : Char) (h : isReMeta c = true) :
    isReSpecial c = true := by
  rw [isReMeta] at h
  have h2 : c ∈ reMetaChars := List.mem_of_elem_eq_true h
  fin_cases h2 <;> decide

theorem parseRe_escape (cs : Str) :
    parseRe (reEscape cs ++ str "\\b") = some (cs.map RElem.lit ++ [.boundary]) := by
  induction cs with
  | nil => rfl
  | cons c cs ih =>
    by_cases hsp : isReSpecial c = true
    · obtain ⟨hb, hal⟩ := isReSpecial_props c hsp
      have hesc : reEscape (c :: cs) = '\\' :: c :: reEscape cs := by
        simp [reEscape, hsp]
      rw [hesc, List.cons_append, List.cons_append, parseRe.eq_def]
      dsimp only
      rw [if_pos rfl, if_neg hb, if_neg (by rw [hal]; exact Bool.false_ne_true), ih]
      rfl
    · have hm : isReMeta c = false := by
        cases hmc : isReMeta c
        · rfl
        · exact absurd (isReMeta_special c hmc) (by simp_all)
      have hns : c ≠ '\\' := by
        intro hh
        rw [hh] at hsp
        exact hsp (by decide)
      have hesc : reEscape (c :: cs) = c :: reEscape cs := by
        simp [reEscape, hsp]
      rw [hesc, List.cons_append, parseRe.eq_def]
      dsimp only
      rw [if_neg hns, if_neg (by rw [hm]; exact Bool.false_ne_true), ih]
      rfl

/-- Modelled from the spec (§7): the keyword occurs in the subject as a
literal, case-insensitive substring with a word boundary on each side —
metacharacters in the keyword act as plain characters. -/
def wordOccurs (kw s : Str) : Prop :=
  ∃ pre mid post, s = pre ++ mid ++ post ∧ lowerS mid = lowerS kw ∧
    wordOpt pre.getLast? ≠ wordOpt (mid ++ post).head? ∧
    wordOpt (pre ++ mid).getLast? ≠ wordOpt post.head?

theorem runPat_lits (kw : Str) :
    ∀ left right,
      (runPat (kw.map RElem.lit ++ [.boundary]) left right).isSome = true ↔
        ∃ mid rest, right = mid ++ rest ∧ lowerS mid = lowerS kw ∧
          wordOpt (mid.reverse ++ left).head? ≠ wordOpt rest.head? := by
  induction kw with
  | nil =>
    intro left right
    simp only [List.map_nil, List.nil_append]
    constructor
    · intro h
      rw [runPat] at h
      by_cases hb : wordOpt left.head? ≠ wordOpt right.head?
      · exact ⟨[], right, rfl, rfl, by simpa using hb⟩
      · rw [if_neg hb] at h
        exact absurd h (by simp)
    · rintro ⟨mid, rest, hsplit, hlow, hb⟩
      have hmid : mid = [] := by
        cases mid with
        | nil => rfl
        | cons a l => exact absurd hlow (by simp [lowerS])
      subst hmid
      subst hsplit
      rw [runPat, if_pos (by simpa using hb)]
      rfl
  | cons c kw ih =>
    intro left right
    cases right with
    | nil =>
      simp only [List.map_cons, List.cons_append]
      constructor
      · intro h
        rw [runPat] at h
        exact absurd h (by simp)
      · rintro ⟨mid, rest, hsplit, hlow, -⟩
        have := List.append_eq_nil.mp hsplit.symm
        rw [this.1] at hlow
        exact absurd hlow (by simp [lowerS])
    | cons ch r =>
      simp only [List.map_cons, List.cons_append]
      by_cases heq : lowerC ch = lowerC c
      · rw [show (runPat (.lit c :: (kw.map RElem.lit ++ [.boundary])) left (ch :: r)) =
            runPat (kw.map RElem.lit ++ [.boundary]) (ch :: left) r by
          rw [runPat, if_pos heq]]
        rw [ih (ch :: left) r]
        constructor
        · rintro ⟨mid, rest, hsplit, hlow, hb⟩
          refine ⟨ch :: mid, rest, by rw [hsplit, List.cons_append], ?_, ?_⟩
          · simp only [lowerS, List.map_cons] at hlow ⊢
            rw [heq, hlow]
          · simpa [List.append_assoc] using hb
        · rintro ⟨mid, rest, hsplit, hlow, hb⟩
          cases mid with
          | nil =>
            exfalso
            rw [List.nil_append] at hsplit
            subst hsplit
            exact absurd hlow (by simp [lowerS])
          | cons m0 mid =>
            rw [List.cons_append] at hsplit
            injection hsplit with h0 hr
            subst h0
            refine ⟨mid, rest, hr, ?_, ?_⟩
            · simp only [lowerS, List.map_cons, List.cons.injEq] at hlow
              exact hlow.2
            · simpa [List.append_assoc] using hb
      · constructor
        · intro h
          rw [runPat, if_neg heq] at h
          exact absurd h (by simp)
        · rintro ⟨mid, rest, hsplit, hlow, -⟩
          exfalso
          cases mid with
          | nil =>
            rw [List.nil_append] at hsplit
            subst hsplit
            exact absurd hlow (by simp [lowerS])
          | cons m0 mid =>
            rw [List.cons_append] at hsplit
            injection hsplit with h0 hr
            subst h0
            simp only [lowerS, List.map_cons, List.cons.injEq] at hlow
            exact heq hlow.1

theorem runPat_kwPattern (kw : Str) (left right : Str) :
    (runPat (kwPattern kw) left right).isSome = true ↔
      (wordOpt left.head? ≠ wordOpt right.head?) ∧
      ∃ mid rest, right = mid ++ rest ∧ lowerS mid = lowerS kw ∧
        wordOpt (mid.reverse ++ left).head? ≠ wordOpt rest.head? := by
  unfold kwPattern
  by_cases hb : wordOpt left.head? ≠ wordOpt right.head?
  · rw [runPat, if_pos hb, runPat_lits kw left right]
    exact ⟨fun h => ⟨hb, h⟩, fun h => h.2⟩
  · rw [runPat, if_neg hb]
    simp only [Option.isSome_none, Bool.false_eq_true, false_iff, not_and]
    intro hcontra
    exact absurd hcontra hb

theorem searchFrom_iff (p : List RElem) :
    ∀ right left, searchFrom p left right = true ↔
      ∃ pre rest, right = pre ++ rest ∧
        (runPat p (pre.reverse ++ left) rest).isSome = true := by
  intro right
  induction right with
  | nil =>
    intro left
    rw [searchFrom]
    simp only [Bool.or_false]
    constructor
    · intro h
      exact ⟨[], [], rfl, h⟩
    · rintro ⟨pre, rest, hsplit, hrun⟩
      obtain ⟨rfl, rfl⟩ := List.append_eq_nil.mp hsplit.symm
      exact hrun
  | cons ch r ih =>
    intro left
    rw [searchFrom]
    simp only [Bool.or_eq_true]
    constructor
    · rintro (h | h)
      · exact ⟨[], ch :: r, rfl, h⟩
      · rcases (ih (ch :: left)).mp h with ⟨pre, rest, hsplit, hrun⟩
        refine ⟨ch :: pre, rest, by rw [hsplit, List.cons_append], ?_⟩
        simpa [List.append_assoc] using hrun
    · rintro ⟨pre, rest, hsplit, hrun⟩
      cases pre with
      | nil =>
        rw [List.nil_append] at hsplit
        subst hsplit
        exact Or.inl (by simpa using hrun)
      | cons p0 pre =>
        rw [List.cons_append] at hsplit
        injection hsplit with h0 hr
        subst h0
        right
        refine (ih (ch :: left)).mpr ⟨pre, rest, hr, ?_⟩
        simpa [List.append_assoc] using hrun

/-- Claim C9: the keyword is escaped literally before being compiled
into the case-insensitive word-boundary pattern.  For every keyword —
the empty string and metacharacter-laden strings included — the
constructed pattern string parses in the plain-literal fragment of
pattern syntax (construction never raises), and the compiled pattern's
`search` semantics is exactly: the keyword occurs as a literal
case-insensitive substring with a word boundary on each side, so regex
metacharacters in the keyword are matched as plain characters. -/
theorem claim_C9 :
    (∀ kw : Str, parseRe (kwPatternSrc kw) = some (kwPattern kw)) ∧
    (∀ kw s : Str, reSearch (kwPattern kw) s = true ↔ wordOccurs kw s) := by
  constructor
  · intro kw
    unfold kwPatternSrc kwPattern
    rw [show str "\\b" ++ reEscape kw ++ str "\\b" =
      '\\' :: 'b' :: (reEscape kw ++ str "\\b") by simp [str]]
    rw [parseRe.eq_def]
    dsimp only
    rw [if_pos rfl, if_pos rfl, parseRe_escape kw]
    rfl
  · intro kw s
    unfold reSearch
    rw [searchFrom_iff (kwPattern kw) s []]
    constructor
    · rintro ⟨pre, rest, hsplit, hrun⟩
      rw [List.append_nil] at hrun
      rcases (runPat_kwPattern kw pre.reverse rest).mp hrun with
        ⟨hb1, mid, post, hsplit2, hlow, hb2⟩
      refine ⟨pre, mid, post, by rw [hsplit, hsplit2, List.append_assoc], hlow, ?_, ?_⟩
      · rw [← List.head?_reverse, ← hsplit2]
        exact hb1
      · rw [← List.head?_reverse]
        rw [List.reverse_append]
        exact hb2
    · rintro ⟨pre, mid, post, hsplit, hlow, hb1, hb2⟩
      refine ⟨pre, mid ++ post, by rw [hsplit, List.append_assoc], ?_⟩
      rw [List.append_nil]
      refine (runPat_kwPattern kw pre.reverse (mid ++ post)).mpr
        ⟨?_, mid, post, rfl, hlow, ?_⟩
      · rw [List.head?_reverse]
        exact hb1
      · rw [← List.reverse_append, List.head?_reverse]
        exact hb2

end UrlScrape
